import Mathlib

/-!
Verification of the tagomatic repository (tagomatic.py and generator.py):
a shallow embedding of the catalog data model, the reindexing pass of
tagomatic.py, and the static-site generator of generator.py, followed by
theorems about the claims of the specification.

Machine integers do not occur (Python integers are unbounded); strings are
modelled by Lean String, and the ASCII fragment of the Python `str.lower`
method is modelled explicitly.  SQLite tables are modelled as lists of rows
in insertion order; `Except String` models a Python exception aborting the
run (the enclosing `with db:` block rolls the transaction back, so an
aborted run leaves no observable database state).
-/

/- ### String helpers -/

/-- One character of the Python `str.lower` method, on the ASCII range:
uppercase letters are shifted to lowercase and every other character is
unchanged. -/
def pyLowerChar (c : Char) : Char :=
  if 'A' ≤ c ∧ c ≤ 'Z' then Char.ofNat (c.toNat + 32) else c

/-- Python `s.lower()` (ASCII fragment). -/
def pyLower (s : String) : String :=
  String.mk (s.data.map pyLowerChar)

/-- Python `f-string` rendering of an `int` column value that may be NULL:
`None` renders as the string `None`. -/
def pyShow : Option Nat → String
  | some n => toString n
  | none => "None"

/-- Python `f-string` `{n:04}` for a nonnegative integer: the decimal digits
left-padded with zeros to at least four characters. -/
def pad4 (n : Nat) : String :=
  let s := toString n
  if s.length < 4 then String.mk (List.replicate (4 - s.length) '0') ++ s else s

/-- Core of `os.path.splitext` for a plain file name (no directory
separator): split at the last dot, except that a name whose characters up to
the last dot are all dots has no extension (CPython genericpath._splitext).
Returns (root, extension). -/
def splitextCs (cs : List Char) : List Char × List Char :=
  match cs.reverse.dropWhile (fun c => c != '.') with
  | [] => (cs, [])
  | _ :: pre =>
    if pre.any (fun c => c != '.') then
      (pre.reverse, '.' :: (cs.reverse.takeWhile (fun c => c != '.')).reverse)
    else (cs, [])

/-- Python `os.path.splitext(s)[1]` for a plain file name. -/
def splitextExt (s : String) : String :=
  String.mk (splitextCs s.data).2

/-- Python `os.path.splitext(s)[0]` for a plain file name. -/
def splitextRoot (s : String) : String :=
  String.mk (splitextCs s.data).1

/-- Python `os.path.basename`: the part of a path after the last slash. -/
def baseName (s : String) : String :=
  String.mk ((s.data.reverse.takeWhile (fun c => c != '/')).reverse)

/- ### The filename pattern of tagomatic.py

`re.match(r'(.*?)([0-9]+)-([0-9]+)\.jpg', fn)`: a lazy arbitrary prefix,
then a digit run, a dash, a digit run and the literal `.jpg`; the match is
anchored at the start only.  Because the lazy group prefers the shortest
prefix, the match starts at the first position from which the rest of the
pattern matches; the digit runs are maximal (a shorter run would have to be
followed by a digit, never by `-` or `.`), and `.` does not match a newline,
so a newline before the matching position makes the whole match fail. -/

/-- Python `int` of a digit run. -/
def digitsToNat (ds : List Char) : Nat :=
  ds.foldl (fun n c => n * 10 + (c.toNat - 48)) 0

/-- Try to match `([0-9]+)-([0-9]+)\.jpg` at the start of `cs`, returning
the two numbers.  Trailing characters after `.jpg` are not constrained. -/
def matchAt (cs : List Char) : Option (Nat × Nat) :=
  let d1 := cs.takeWhile Char.isDigit
  let r1 := cs.dropWhile Char.isDigit
  if d1.isEmpty then none else
  match r1 with
  | '-' :: r2 =>
    let d2 := r2.takeWhile Char.isDigit
    let r3 := r2.dropWhile Char.isDigit
    if d2.isEmpty then none else
    match r3 with
    | '.' :: 'j' :: 'p' :: 'g' :: _ => some (digitsToNat d1, digitsToNat d2)
    | _ => none
  | _ => none

/-- Scan for the first position from which `matchAt` succeeds, accumulating
the (reversed) lazy prefix; a newline stops the scan because `.` does not
match it. -/
def findMatch (acc cs : List Char) : Option (String × Nat × Nat) :=
  match matchAt cs with
  | some (s, i) => some (String.mk acc.reverse, s, i)
  | none =>
    match cs with
    | [] => none
    | c :: rest => if c = '\n' then none else findMatch (c :: acc) rest

/-- The call `re.match` on the pattern above: `none` models a failed
match, `some (pfx, series, imgnum)` the three groups (with the digit
groups already converted by `int`). -/
def parseFn (fn : String) : Option (String × Nat × Nat) :=
  findMatch [] fn.data

example : parseFn "AA001-01.jpg" = some ("AA", 1, 1) := by decide
example : parseFn "AA002-13.jpg" = some ("AA", 2, 13) := by decide
example : parseFn "a1b2-3.jpg" = some ("a1b", 2, 3) := by decide
example : parseFn "12-3.jpg" = some ("", 12, 3) := by decide
example : parseFn "cover.jpg" = none := by decide
example : parseFn "AA001-01x.jpg" = none := by decide
example : splitextExt "x.JPG" = ".JPG" := by decide
example : splitextExt ".bashrc" = "" := by decide
example : splitextExt "a.b.c" = ".c" := by decide
example : splitextRoot "ar-aa-0001.jpg" = "ar-aa-0001" := by decide
example : pad4 12 = "0012" := by decide
example : pad4 12345 = "12345" := by decide
example : baseName "images/ar-aa-0001.jpg" = "ar-aa-0001.jpg" := by decide
example : pyLower "A.Zb" = "a.zb" := by decide

/- ### Data model (tagomatic.py schema)

CREATE TABLE pics (id INTEGER PRIMARY KEY, filename TEXT, category TEXT,
  book TEXT, prefix TEXT, sha3 TEXT UNIQUE, pgnum INTEGER, path TEXT,
  valid INTEGER);
CREATE TABLE tags (id INTEGER PRIMARY KEY, type TEXT,
  name TEXT UNIQUE COLLATE NOCASE, description TEXT);
CREATE TABLE pic_tags (id INTEGER PRIMARY KEY, pic REFERENCES pics(id),
  tag REFERENCES tags(id), value TEXT);

The `prefix` column is called `pfx` here because `prefix` is reserved in
Lean; the `path` column is called `relpath`.  TEXT columns that the code
can leave NULL are Option String, `pgnum` is Option Nat. -/

structure PicRow where
  id : Nat
  filename : String
  category : Option String
  book : String
  pfx : String
  sha3 : String
  pgnum : Option Nat
  relpath : String
  valid : Nat
deriving DecidableEq

structure TagRow where
  id : Nat
  ty : String
  name : String
  description : String
deriving DecidableEq

structure PicTagRow where
  id : Nat
  pic : Nat
  tag : Nat
  value : Option String
deriving DecidableEq

structure DB where
  pics : List PicRow
  tags : List TagRow
  picTags : List PicTagRow
deriving DecidableEq

def emptyDB : DB := ⟨[], [], []⟩

/-- A fresh INTEGER PRIMARY KEY value: one more than the largest id in the
table (SQLite rowid allocation for a non-full table). -/
def freshId (ids : List Nat) : Nat :=
  ids.foldl max 0 + 1

/-- NOCASE equality of tag names, used because the `name` column carries
COLLATE NOCASE. -/
def nocaseEq (a b : String) : Bool :=
  pyLower a == pyLower b

/-- One row of the initial INSERT INTO tags ... ON CONFLICT DO NOTHING:
insert unless a tag of that (NOCASE) name exists. -/
def insertTagIfAbsent (db : DB) (ty nm desc : String) : DB :=
  if db.tags.any (fun t => nocaseEq t.name nm) then db
  else { db with tags := db.tags ++ [⟨freshId (db.tags.map TagRow.id), ty, nm, desc⟩] }

/-- CREATE TABLE IF NOT EXISTS plus the initial
INSERT INTO tags VALUES ("str","title",...),("str","comment",...),
("bool","check",...) ON CONFLICT DO NOTHING. -/
def ensureTags (db : DB) : DB :=
  insertTagIfAbsent
    (insertTagIfAbsent (insertTagIfAbsent db "str" "title" "Image Title")
      "str" "comment" "Comment")
    "bool" "check" "Double-check this image"

/- ### The reindex pass of tagomatic.py (`__main__`, reindex option) -/

/-- One file found by `glob('**/*.jpg')`, presented to the reindex loop:
`fn` is the file name (after `path.split`), `relStr` the directory part of
the relative path as stored in the `path` column, `rel` the components
`path.normpath(relStr).split(os.sep)` (so a top-level file has `rel = [.]`),
and `sha3` the hex digest of the file contents (content hashing itself is
an external primitive). -/
structure ScanFile where
  rel : List String
  relStr : String
  fn : String
  sha3 : String
deriving DecidableEq

/-- Models `book, *rest = normpath(rel).split(sep)` followed by the category
unpacking; a third directory level raises UserWarning. -/
def dirSplit (rel : List String) : Except String (String × Option String) :=
  match rel with
  | [] => .error "empty path"
  | [book] => .ok (book, none)
  | [book, cat] => .ok (book, some cat)
  | _ => .error "Unhandled directory component"

/-- UPDATE pics SET valid=0 (start of the reindex). -/
def validZero (db : DB) : DB :=
  { db with pics := db.pics.map (fun r => { r with valid := 0 }) }

/-- The upsert hack: UPDATE pics SET book=?,category=?,filename=?,path=?,
prefix=?,valid=1 WHERE sha3=?; if no row was affected, INSERT a new row
(with pgnum NULL). -/
def upsertPic (db : DB) (book : String) (cat : Option String)
    (fn rel pfx hash : String) : DB :=
  if db.pics.any (fun r => r.sha3 == hash) then
    { db with pics := db.pics.map (fun r =>
        if r.sha3 == hash then
          { r with book := book, category := cat, filename := fn,
                   relpath := rel, pfx := pfx, valid := 1 }
        else r) }
  else
    { db with pics := db.pics ++
        [⟨freshId (db.pics.map PicRow.id), fn, cat, book, pfx, hash, none, rel, 1⟩] }

/-- SELECT pic_tags.id FROM pic_tags JOIN pics ..., tags ... WHERE
tags.name="title" AND pics.sha3=? (existence check). -/
def titleTagPresent (db : DB) (hash : String) : Bool :=
  db.picTags.any (fun pt =>
    db.pics.any (fun p => p.id == pt.pic && p.sha3 == hash) &&
    db.tags.any (fun t => t.id == pt.tag && nocaseEq t.name "title"))

/-- INSERT INTO pic_tags (pic, tag) VALUES ((SELECT id FROM pics WHERE
sha3=?), (SELECT id FROM tags WHERE name="title")) - value is NULL.  The
unreachable case of a missing referent is modelled as a no-op (after the
upsert the picture always exists and ensureTags provides the title tag). -/
def insertTitleTag (db : DB) (hash : String) : DB :=
  match db.pics.find? (fun p => p.sha3 == hash),
        db.tags.find? (fun t => nocaseEq t.name "title") with
  | some p, some t =>
    { db with picTags := db.picTags ++
        [⟨freshId (db.picTags.map PicTagRow.id), p.id, t.id, none⟩] }
  | _, _ => db

/-- One (series, imgnum, hash) entry of a prefix group. -/
abbrev Entry := Nat × Nat × String

/-- The `prefixes` defaultdict: an association list in insertion order,
each prefix mapped to its entries in scan order. -/
abbrev PrefixMap := List (String × List Entry)

/-- Models `prefixes[prefix].append((int(series), int(imgnum), hash))`. -/
def addPrefixEntry (m : PrefixMap) (pfx : String) (e : Entry) : PrefixMap :=
  if m.any (fun kv => kv.1 == pfx) then
    m.map (fun kv => if kv.1 == pfx then (kv.1, kv.2 ++ [e]) else kv)
  else m ++ [(pfx, [e])]

/-- The body of the per-file reindex loop: parse the file name (a failed
match raises UserWarning), split book and category from the directory,
record the prefix entry, upsert the pics row, and give the picture an empty
title tag if it has none. -/
def reindexFile (db : DB) (m : PrefixMap) (f : ScanFile) :
    Except String (DB × PrefixMap) :=
  match parseFn f.fn with
  | none => .error ("cannot parse image filename " ++ f.fn)
  | some (pfx, series, imgnum) =>
    let m2 := addPrefixEntry m pfx (series, imgnum, f.sha3)
    match dirSplit f.rel with
    | .error e => .error e
    | .ok (book, cat) =>
      let db2 := upsertPic db book cat f.fn f.relStr pfx f.sha3
      let db3 := if titleTagPresent db2 f.sha3 then db2 else insertTitleTag db2 f.sha3
      .ok (db3, m2)

/-- The Python tuple-lexicographic order on the sort key
`(tup[0], tup[1])` of a prefix entry. -/
def entryLe (a b : Entry) : Prop :=
  a.1 < b.1 ∨ (a.1 = b.1 ∧ a.2.1 ≤ b.2.1)

instance : DecidableRel entryLe := fun a b =>
  inferInstanceAs (Decidable (a.1 < b.1 ∨ (a.1 = b.1 ∧ a.2.1 ≤ b.2.1)))

instance : IsTotal Entry entryLe :=
  ⟨fun a b => by
    unfold entryLe
    rcases Nat.lt_trichotomy a.1 b.1 with h | h | h
    · exact Or.inl (Or.inl h)
    · rcases Nat.le_total a.2.1 b.2.1 with h2 | h2
      · exact Or.inl (Or.inr ⟨h, h2⟩)
      · exact Or.inr (Or.inr ⟨h.symm, h2⟩)
    · exact Or.inr (Or.inl h)⟩

instance : IsTrans Entry entryLe :=
  ⟨fun a b c hab hbc => by
    unfold entryLe at *
    rcases hab with h | ⟨h, h2⟩ <;> rcases hbc with g | ⟨g, g2⟩
    · exact Or.inl (h.trans g)
    · exact Or.inl (g ▸ h)
    · exact Or.inl (h ▸ g)
    · exact Or.inr ⟨h.trans g, h2.trans g2⟩⟩

/-- Models `sorted(entries, key=lambda tup: (tup[0], tup[1]))` - Python sorted is
a stable sort by the key, as is insertionSort. -/
def sortedEntries (entries : List Entry) : List Entry :=
  List.insertionSort entryLe entries

/-- The page-number assignment a prefix group receives from
`for num, (_1, _2, hash) in enumerate(sorted(entries, ...), start=1)`:
the association hash - page number, in loop order. -/
def assignedPages (entries : List Entry) : List (String × Nat) :=
  (sortedEntries entries).enum.map (fun p => (p.2.2.2, p.1 + 1))

/-- The pics-table effect of the enumerate loop: each iteration runs
UPDATE pics SET pgnum=num WHERE sha3=hash. -/
def setGroupPgnums (pics : List PicRow) (entries : List Entry) : List PicRow :=
  (assignedPages entries).foldl
    (fun ps hp => ps.map (fun r =>
      if r.sha3 == hp.1 then { r with pgnum := some hp.2 } else r)) pics

/-- Models `for entries in prefixes.values(): ...`. -/
def setAllPgnums (pics : List PicRow) (m : PrefixMap) : List PicRow :=
  m.foldl (fun ps kv => setGroupPgnums ps kv.2) pics

/-- Models `for pic in tqdm.tqdm(piclist): ...` - the reindex loop over the
scanned files; the first exception aborts it. -/
def reindexLoop (s : DB × PrefixMap) : List ScanFile → Except String (DB × PrefixMap)
  | [] => .ok s
  | f :: fs =>
    match reindexFile s.1 s.2 f with
    | .error e => .error e
    | .ok s2 => reindexLoop s2 fs

/-- The whole reindex pass (the body of `with db:`): create the tables and
default tags, mark every row invalid, loop over the scanned files, then
assign page numbers per prefix group.  An exception rolls the transaction
back, modelled by returning `.error` and discarding the state. -/
def reindex (db : DB) (files : List ScanFile) : Except String DB :=
  match reindexLoop (validZero (ensureTags db), ([] : PrefixMap)) files with
  | .error e => .error e
  | .ok (db2, m) => .ok { db2 with pics := setAllPgnums db2.pics m }

/-- SELECT filename, sha3 FROM pics WHERE valid=0 - the warning listing of
files that disappeared, printed after the reindex. -/
def disappeared (db : DB) : List (String × String) :=
  (db.pics.filter (fun r => r.valid == 0)).map (fun r => (r.filename, r.sha3))

/- ### generator.py: output naming -/

/-- The imgname lambda of generator.py:
ar-{prefix.lower()}-{pgnum:04}{path.splitext(orig_fn)[1].lower()}. -/
def imgname (pfx : String) (pgnum : Nat) (origFn : String) : String :=
  "ar-" ++ pyLower pfx ++ "-" ++ pad4 pgnum ++ pyLower (splitextExt origFn)

/-- The imgpath lambda: path.join('images', imgname(...)). -/
def imgpath (pfx : String) (pgnum : Nat) (origFn : String) : String :=
  "images/" ++ imgname pfx pgnum origFn

/-- The thumbpath lambda: path.join('thumbs', imgname(prefix, pgnum,
'_.png')). -/
def thumbpath (pfx : String) (pgnum : Nat) : String :=
  "thumbs/" ++ imgname pfx pgnum "_.png"

/- ### generator.py: database queries -/

/-- SELECT id FROM tags WHERE name="title" (scalar subquery: first matching
row, NULL when there is none); name is COLLATE NOCASE. -/
def titleTagOf (db : DB) : Option Nat :=
  (db.tags.find? (fun t => nocaseEq t.name "title")).map TagRow.id

/-- The Boolean WHERE filter of the book index query on a joined
(pic_tags, pics) row: pic_tags.tag equals the title tag id, pics.book is
the given book, and value is neither NULL nor empty. -/
def titleRowFilter (db : DB) (book : String) (r : PicTagRow × PicRow) : Bool :=
  (match titleTagOf db with
   | some tid => r.1.tag == tid
   | none => false) &&
  r.2.book == book &&
  (match r.1.value with
   | some v => v != ""
   | none => false)

/-- Order of the book index query: ORDER BY value (all values are non-NULL
strings after the filter; SQLite BINARY text order agrees with the Lean
lexicographic order on strings). -/
def valueLe (a b : PicTagRow × PicRow) : Prop :=
  a.1.value.getD "" ≤ b.1.value.getD ""

instance : DecidableRel valueLe := fun a b =>
  inferInstanceAs (Decidable (a.1.value.getD "" ≤ b.1.value.getD ""))

instance : IsTotal (PicTagRow × PicRow) valueLe :=
  ⟨fun a b => le_total (a.1.value.getD "") (b.1.value.getD "")⟩

instance : IsTrans (PicTagRow × PicRow) valueLe :=
  ⟨fun _ _ _ hab hbc => le_trans hab hbc⟩

/-- SELECT value, pgnum FROM pic_tags JOIN pics ON pics.id=pic_tags.pic
WHERE pic_tags.tag=(SELECT id FROM tags WHERE name="title") AND book=?
AND value NOT NULL AND value != "" ORDER BY value - as the list of joined
rows before the (value, pgnum) projection. -/
def bookIndexRows (db : DB) (book : String) : List (PicTagRow × PicRow) :=
  List.insertionSort valueLe
    ((db.picTags.flatMap (fun pt =>
        (db.pics.filter (fun p => p.id == pt.pic)).map (fun p => (pt, p)))).filter
      (titleRowFilter db book))

/-- The (value, link) entries rendered into a book index page. -/
def bookIndexEntries (db : DB) (book : String) : List (String × String) :=
  (bookIndexRows db book).map (fun r =>
    (r.1.value.getD "", "pages/pg" ++ pyShow r.2.pgnum ++ ".html"))

/-- The SQLite ORDER BY order on a nullable integer column: NULL sorts
before every number. -/
def optNatLe : Option Nat → Option Nat → Prop
  | none, _ => True
  | some _, none => False
  | some a, some b => a ≤ b

instance : DecidableRel optNatLe
  | none, _ => isTrue trivial
  | some _, none => isFalse id
  | some a, some b => Nat.decLe a b

theorem optNatLe_total : ∀ (a b : Option Nat), optNatLe a b ∨ optNatLe b a
  | none, _ => Or.inl trivial
  | some _, none => Or.inr trivial
  | some x, some y => (Nat.le_total x y).imp id id

theorem optNatLe_trans :
    ∀ {a b c : Option Nat}, optNatLe a b → optNatLe b c → optNatLe a c
  | none, _, _, _, _ => trivial
  | some _, none, _, h1, _ => h1.elim
  | some _, some _, none, _, h2 => h2.elim
  | some _, some _, some _, h1, h2 => Nat.le_trans h1 h2

/-- Order of the page list queries: ORDER BY pgnum. -/
def rowPgLe (p q : PicRow) : Prop :=
  optNatLe p.pgnum q.pgnum

instance : DecidableRel rowPgLe := fun p q =>
  inferInstanceAs (Decidable (optNatLe p.pgnum q.pgnum))

instance : IsTotal PicRow rowPgLe :=
  ⟨fun p q => optNatLe_total p.pgnum q.pgnum⟩

instance : IsTrans PicRow rowPgLe :=
  ⟨fun _ _ _ hpq hqr => optNatLe_trans hpq hqr⟩

/-- SELECT prefix, pgnum, filename, sha3 FROM pics WHERE book=? ORDER BY
pgnum (the rows; the queries project different columns from them). -/
def bookPics (db : DB) (book : String) : List PicRow :=
  List.insertionSort rowPgLe (db.pics.filter (fun p => p.book == book))

/-- SELECT DISTINCT book FROM pics ORDER BY book. -/
def booksOf (db : DB) : List String :=
  List.insertionSort (fun a b => a ≤ b) (db.pics.map PicRow.book).dedup

/-- SELECT DISTINCT category FROM pics WHERE book=? AND category NOT NULL
(no ORDER BY: first-occurrence order). -/
def bookCats (db : DB) (book : String) : List String :=
  ((db.pics.filter (fun p => p.book == book)).filterMap PicRow.category).dedup

/-- cats = [(cat, path.join(book_dir, f'pages-{cat}.html')) ...]: the file
name interpolates the category string verbatim. -/
def catFn (book cat : String) : String :=
  book ++ "/pages-" ++ cat ++ ".html"

/-- SELECT prefix, pgnum, filename FROM pics WHERE book=? AND category=?
ORDER BY pgnum. -/
def catPics (db : DB) (book cat : String) : List PicRow :=
  List.insertionSort rowPgLe
    (db.pics.filter (fun p => p.book == book && p.category == some cat))

/- ### generator.py: the detail page prev/next chain -/

/-- One element of the `pages` list of a book:
(pgnum, thumb, img, link, hash). -/
structure PageEnt where
  pgnum : Option Nat
  thumb : String
  img : String
  link : String
  hash : String
deriving DecidableEq

/-- zip of three lists (Python zip truncates to the shortest). -/
def zip3 (a : List α) (b : List β) (c : List γ) : List (α × β × γ) :=
  a.zip (b.zip c)

/-- zip([None] + pages[:-1], pages, pages[1:] + [None]): each page paired
with its optional predecessor and successor. -/
def detailNavs (pages : List PageEnt) : List (Option PageEnt × PageEnt × Option PageEnt) :=
  zip3 (none :: pages.dropLast.map some) pages (pages.tail.map some ++ [none])

/-- prev_link = f'pg{prev_num}.html' when a neighbour exists, None
otherwise (same for next_link). -/
def navLinkOf (o : Option PageEnt) : Option String :=
  o.map (fun q => "pg" ++ pyShow q.pgnum ++ ".html")

/-- page_fn = path.join(page_dir, f'pg{pgnum}.html'): the file name under
`<book>/pages/` of the detail page written for a page entry. -/
def detailFileName (q : PageEnt) : String :=
  "pg" ++ pyShow q.pgnum ++ ".html"

/- ### generator.py: the file-copy loop and the output file list -/

/-- Python dict assignment d[k] = v on an insertion-ordered association
list: an existing key keeps its position, a new key is appended. -/
def dictInsert (d : List (String × String)) (k v : String) : List (String × String) :=
  if d.any (fun kv => kv.1 == k) then
    d.map (fun kv => if kv.1 == k then (k, v) else kv)
  else d ++ [(k, v)]

/-- Python dict lookup d[k] (None when the key is absent, which in the
copy loop raises KeyError). -/
def dictLookup (d : List (String × String)) (k : String) : Option String :=
  (d.find? (fun kv => kv.1 == k)).map Prod.snd

/-- Models `pics = {}; for pic in glob(...): pics[hash] = pic` - the scan result
as a dict from content hash to source path. -/
def picsDict (scan : List (String × String)) : List (String × String) :=
  scan.foldl (fun d kv => dictInsert d kv.1 kv.2) []

/-- The image copy loop: for each pics row, format the destination name
(a NULL pgnum makes the f-string raise TypeError), read pics[hash] (a
missing hash raises KeyError), copy the file and point the dict entry at
the copy.  Returns the final dict and the list of copied files. -/
def copyLoop (dict : List (String × String)) :
    List PicRow → Except String (List (String × String) × List String)
  | [] => .ok (dict, [])
  | r :: rs =>
    match r.pgnum with
    | none => .error "TypeError: format of NULL pgnum"
    | some n =>
      let dst := imgpath r.pfx n r.filename
      match dictLookup dict r.sha3 with
      | none => .error ("KeyError: " ++ r.sha3)
      | some _ =>
        match copyLoop (dictInsert dict r.sha3 dst) rs with
        | .error e => .error e
        | .ok (d2, outs) => .ok (d2, dst :: outs)

/-- The file mogrify -format png writes for one input file: the base name
with its extension replaced by .png, inside thumbs/. -/
def mogrifyName (src : String) : String :=
  splitextRoot (baseName src) ++ ".png"

/-- The thumbnail batch: one output per value of the pics dict. -/
def thumbFiles (dict : List (String × String)) : List String :=
  dict.map (fun kv => "thumbs/" ++ mogrifyName kv.2)

/-- The files written inside one book directory, in write order: the book
index, the book page list, one category page list per distinct category,
and one detail page per picture of the book. -/
def bookFiles (db : DB) (b : String) : List String :=
  [b ++ "/index.html", b ++ "/pages.html"]
  ++ (bookCats db b).map (catFn b)
  ++ (bookPics db b).map (fun p => b ++ "/pages/pg" ++ pyShow p.pgnum ++ ".html")

/-- The relative paths of all files the generator writes under the output
root, in write order: the copied images, the thumbnails, the per-book
files, and the global index, page list and style sheet.  Fails where the
Python run raises. -/
def generatorRun (db : DB) (scan : List (String × String)) :
    Except String (List String) :=
  match copyLoop (picsDict scan) db.pics with
  | .error e => .error e
  | .ok (dict, imgs) =>
    .ok (imgs ++ thumbFiles dict ++ (booksOf db).flatMap (bookFiles db)
         ++ ["index.html", "pages.html", "style.css"])

example : imgname "AA" 1 "x.jpg" = "ar-aa-0001.jpg" := by decide
example : imgpath "A" 12 "x.JPG" = "images/ar-a-0012.jpg" := by decide
example : thumbpath "A" 12 = "thumbs/ar-a-0012.png" := by decide
example : mogrifyName "images/ar-a-0012.jpg" = "ar-a-0012.png" := by decide

/- ### Small string facts used by several theorems -/

theorem strAppend_assoc (a b c : String) : (a ++ b) ++ c = a ++ (b ++ c) := by
  cases a
  cases b
  cases c
  apply congrArg String.mk
  exact List.append_assoc ..

/- ### Claim C4 -/

/-- C4 as the spec words it: images/ar-(prefix lowercased)-(page, four
digit zero padded).(ext), where (ext) is the extension of the original
file name, taken verbatim. -/
def imgpathSpecC4 (pfx : String) (pgnum : Nat) (origFn : String) : String :=
  "images/ar-" ++ pyLower pfx ++ "-" ++ pad4 pgnum ++ splitextExt origFn

/-- C4 counterexample: the code also lowercases the extension, so for an
original file name with an uppercase extension the emitted path differs
from the claimed template (which keeps the original extension). -/
theorem c4_counterexample :
    imgpath "A" 1 "x.JPG" ≠ imgpathSpecC4 "A" 1 "x.JPG" ∧
    imgpath "A" 1 "x.JPG" = "images/ar-a-0001.jpg" ∧
    imgpathSpecC4 "A" 1 "x.JPG" = "images/ar-a-0001.JPG" := by
  refine ⟨?_, by decide, by decide⟩
  decide

/-- C4 amended: the output image path and thumbnail path are the stated
deterministic functions of (prefix, page number, original extension),
except that the extension is lowercased as well. -/
theorem c4_amended (pfx : String) (n : Nat) (fn : String) :
    imgpath pfx n fn =
      "images/ar-" ++ pyLower pfx ++ "-" ++ pad4 n ++ pyLower (splitextExt fn) ∧
    thumbpath pfx n = "thumbs/ar-" ++ pyLower pfx ++ "-" ++ pad4 n ++ ".png" := by
  have h1 : ("images/" : String) ++ "ar-" = "images/ar-" := by decide
  have h2 : ("thumbs/" : String) ++ "ar-" = "thumbs/ar-" := by decide
  have h3 : pyLower (splitextExt "_.png") = ".png" := by decide
  constructor
  · rw [imgpath, imgname]
    simp only [← strAppend_assoc]
    rw [h1]
  · rw [thumbpath, imgname, h3]
    simp only [← strAppend_assoc]
    rw [h2]

/- ### Claim C7 -/

/-- C7 counterexample: the category string is interpolated into the file
name verbatim, with no sanitization; a category containing a slash yields
a path of three components, so the part derived from the category is not a
single path segment. -/
theorem c7_counterexample :
    catFn "B" "a/b" = "B/pages-a/b.html" ∧
    ((catFn "B" "a/b").data.filter (fun c => c == '/')).length = 2 := by
  decide

/-- C7 amended: for every book and every distinct non-null category value
in it, exactly one category page list is emitted (the category list is
duplicate-free and has exactly the categories occurring in the book), it
contains exactly the pictures of the book with that category ordered by
page number, and its file name is pages-(category).html with the category
string used verbatim, not sanitized. -/
theorem c7_amended (db : DB) (b : String) :
    (bookCats db b).Nodup ∧
    (∀ c, c ∈ bookCats db b ↔ ∃ p ∈ db.pics, p.book = b ∧ p.category = some c) ∧
    (∀ c, (catPics db b c).Sorted rowPgLe ∧
      ∀ p, p ∈ catPics db b c ↔ p ∈ db.pics ∧ p.book = b ∧ p.category = some c) := by
  refine ⟨List.nodup_dedup _, fun c => ?_, fun c => ⟨List.sorted_insertionSort .., fun p => ?_⟩⟩
  · simp [bookCats, List.mem_dedup, List.mem_filterMap, List.mem_filter]
    constructor
    · rintro ⟨p, ⟨hp, hb⟩, hc⟩
      exact ⟨p, hp, by simpa using hb, hc⟩
    · rintro ⟨p, hp, hb, hc⟩
      exact ⟨p, ⟨hp, by simpa using hb⟩, hc⟩
  · rw [catPics, (List.perm_insertionSort rowPgLe _).mem_iff, List.mem_filter]
    simp

/- ### Claim C10 -/

/-- The C10 scenario: one book directory B holding two pictures whose file
names carry different prefixes (A and C). -/
def c10files : List ScanFile :=
  [⟨["B"], "B", "A001-01.jpg", "h1"⟩, ⟨["B"], "B", "C001-01.jpg", "h2"⟩]

/-- The sequence of detail-page writes of a book, in write order: the file
path relative to the output root, tagged with the sha3 of the picture the
page renders. -/
def detailWrites (db : DB) (b : String) : List (String × String) :=
  (bookPics db b).map (fun p => (b ++ "/pages/pg" ++ pyShow p.pgnum ++ ".html", p.sha3))

/-- The content a path holds after a sequence of writes: the last write to
that path wins. -/
def lastWrite (ws : List (String × String)) (p : String) : Option String :=
  ((ws.filter (fun w => w.1 == p)).map Prod.snd).getLast?

/-- C10: page numbers are assigned per prefix group, while detail page
file names are keyed only by (book, page number).  Reindexing the c10files
tree gives both pictures of book B page number 1, the generator writes
both detail pages to B/pages/pg1.html, and the later write (the picture
with hash h2) overwrites the earlier one (hash h1). -/
theorem c10_duplicate_detail_paths :
    (reindex emptyDB c10files).toOption.map (fun db => detailWrites db "B") =
      some [("B/pages/pg1.html", "h1"), ("B/pages/pg1.html", "h2")] ∧
    lastWrite [("B/pages/pg1.html", "h1"), ("B/pages/pg1.html", "h2")]
        "B/pages/pg1.html" = some "h2" := by
  constructor
  · rfl
  · rfl

/- ### Claim C8 -/

theorem reindexLoop_error_of_parse_fail (f : ScanFile) (hp : parseFn f.fn = none) :
    ∀ (fs : List ScanFile) (s : DB × PrefixMap), f ∈ fs →
      ∃ e, reindexLoop s fs = .error e := by
  intro fs
  induction fs with
  | nil => intro s hf; exact absurd hf (List.not_mem_nil f)
  | cons g gs ih =>
    intro s hf
    rcases List.mem_cons.mp hf with rfl | hf2
    · refine ⟨"cannot parse image filename " ++ f.fn, ?_⟩
      simp [reindexLoop, reindexFile, hp]
    · match hg : reindexFile s.1 s.2 g with
      | .error e => exact ⟨e, by simp [reindexLoop, hg]⟩
      | .ok s2 =>
        obtain ⟨e, he⟩ := ih s2 hf2
        exact ⟨e, by simp [reindexLoop, hg, he]⟩

/-- C8: a scanned file whose name the pattern does not match makes the
whole reindex run fail with an error (the UserWarning aborts the run and
rolls the transaction back); no file is skipped and nothing is recovered. -/
theorem c8_bad_filename_fatal (db : DB) (files : List ScanFile) (f : ScanFile)
    (hf : f ∈ files) (hp : parseFn f.fn = none) :
    ∃ e, reindex db files = .error e := by
  obtain ⟨e, he⟩ :=
    reindexLoop_error_of_parse_fail f hp files (validZero (ensureTags db), []) hf
  exact ⟨e, by simp [reindex, he]⟩

/-- C8 witness: the file cover.jpg fails the pattern, and a run over a
tree containing it fails. -/
theorem c8_witness :
    (⟨["B"], "B", "cover.jpg", "h9"⟩ : ScanFile) ∈
        [(⟨["B"], "B", "cover.jpg", "h9"⟩ : ScanFile)] ∧
    parseFn "cover.jpg" = none ∧
    ∃ e, reindex emptyDB [⟨["B"], "B", "cover.jpg", "h9"⟩] = .error e :=
  ⟨by decide, by decide,
   c8_bad_filename_fatal emptyDB [⟨["B"], "B", "cover.jpg", "h9"⟩]
     ⟨["B"], "B", "cover.jpg", "h9"⟩ (by decide) (by decide)⟩

/- ### Claim C3 -/

theorem zip3_getElem? {α β γ : Type} {as : List α} {bs : List β} {ds : List γ}
    {i : Nat} {x : α} {y : β} {z : γ}
    (ha : as[i]? = some x) (hb : bs[i]? = some y) (hc : ds[i]? = some z) :
    (zip3 as bs ds)[i]? = some (x, y, z) := by
  unfold zip3
  exact List.getElem?_zip_eq_some.mpr
    ⟨ha, List.getElem?_zip_eq_some.mpr ⟨hb, hc⟩⟩

theorem detailNavs_prev_component (pages : List PageEnt) (i : Nat)
    (hi : i < pages.length) :
    (none :: pages.dropLast.map some)[i]? =
      some (if i = 0 then none else pages[i-1]?) := by
  cases i with
  | zero => simp
  | succ j =>
    have hj : j < pages.length - 1 := by omega
    have hj2 : j < pages.length := by omega
    simp only [List.getElem?_cons_succ, List.getElem?_map,
      List.dropLast_eq_take, List.getElem?_take, if_pos hj,
      Nat.succ_ne_zero, if_false, Nat.succ_sub_one]
    rw [List.getElem?_eq_getElem hj2]
    rfl

theorem detailNavs_next_component (pages : List PageEnt) (i : Nat)
    (hi : i < pages.length) :
    (pages.tail.map some ++ [none])[i]? = some pages[i+1]? := by
  rcases Nat.lt_or_ge i (pages.length - 1) with h | h
  · have hlen : i < (pages.tail.map some).length := by
      simp only [List.length_map, List.length_tail]
      omega
    have hi1 : i + 1 < pages.length := by omega
    rw [List.getElem?_append, if_pos hlen]
    simp only [List.getElem?_map, List.getElem?_tail]
    rw [List.getElem?_eq_getElem hi1]
    rfl
  · have hlen : (pages.tail.map some).length = pages.length - 1 := by
      simp only [List.length_map, List.length_tail]
    have h1 : ¬ i < (pages.tail.map some).length := by omega
    rw [List.getElem?_append, if_neg h1]
    have h2 : pages[i+1]? = none := by
      rw [List.getElem?_eq_none]
      omega
    have h3 : i - (pages.tail.map some).length = 0 := by omega
    rw [h2, h3]
    rfl

/-- C3: for the detail-page sequence of a book (the `pages` list, already
ordered by page number), the zip construction pairs the i-th page with the
(i-1)-th page as predecessor (none for the first page) and the (i+1)-th
page as successor (none for the last page); the rendered prev and next
links are the detail-page file names pg(pgnum).html of exactly those
neighbours, and are absent exactly on the first and last page. -/
theorem c3_detail_links (pages : List PageEnt) (i : Nat) (p : PageEnt)
    (hp : pages[i]? = some p) :
    (detailNavs pages).length = pages.length ∧
    (detailNavs pages)[i]? =
      some ((if i = 0 then none else pages[i-1]?), p, pages[i+1]?) ∧
    (i = 0 → ((detailNavs pages)[i]?).map (fun t => navLinkOf t.1) = some none) ∧
    (∀ q, 0 < i → pages[i-1]? = some q →
      ((detailNavs pages)[i]?).map (fun t => navLinkOf t.1) =
        some (some (detailFileName q))) ∧
    (i + 1 = pages.length →
      ((detailNavs pages)[i]?).map (fun t => navLinkOf t.2.2) = some none) ∧
    (∀ q, pages[i+1]? = some q →
      ((detailNavs pages)[i]?).map (fun t => navLinkOf t.2.2) =
        some (some (detailFileName q))) := by
  have hi : i < pages.length := by
    rcases List.getElem?_eq_some.mp hp with ⟨h, _⟩
    exact h
  have hmain : (detailNavs pages)[i]? =
      some ((if i = 0 then none else pages[i-1]?), p, pages[i+1]?) :=
    zip3_getElem? (detailNavs_prev_component pages i hi) hp
      (detailNavs_next_component pages i hi)
  have hlen : (detailNavs pages).length = pages.length := by
    have h0 : 0 < pages.length := by omega
    simp only [detailNavs, zip3, List.length_zip, List.length_cons,
      List.length_map, List.length_dropLast, List.length_tail,
      List.length_append, List.length_singleton]
    omega
  refine ⟨hlen, hmain, ?_, ?_, ?_, ?_⟩
  · intro h0
    rw [hmain, h0]
    simp [navLinkOf]
  · intro q h0 hq
    rw [hmain, if_neg (by omega : ¬ i = 0), hq]
    rfl
  · intro hlast
    have h2 : pages[i+1]? = none := by
      rw [List.getElem?_eq_none]
      omega
    rw [hmain, h2]
    simp [navLinkOf]
  · intro q hq
    rw [hmain, hq]
    rfl

/-- C3 witness at a concrete three-page book: the middle page links to
both neighbours. -/
def c3pages : List PageEnt :=
  [⟨some 1, "t1", "i1", "l1", "h1"⟩, ⟨some 2, "t2", "i2", "l2", "h2"⟩,
   ⟨some 3, "t3", "i3", "l3", "h3"⟩]

theorem c3_witness :
    c3pages[1]? = some ⟨some 2, "t2", "i2", "l2", "h2"⟩ ∧
    ((detailNavs c3pages).length = c3pages.length ∧
    (detailNavs c3pages)[1]? =
      some ((if 1 = 0 then none else c3pages[0]?),
            (⟨some 2, "t2", "i2", "l2", "h2"⟩ : PageEnt), c3pages[2]?) ∧
    (1 = 0 → ((detailNavs c3pages)[1]?).map (fun t => navLinkOf t.1) = some none) ∧
    (∀ q, 0 < 1 → c3pages[0]? = some q →
      ((detailNavs c3pages)[1]?).map (fun t => navLinkOf t.1) =
        some (some (detailFileName q))) ∧
    (1 + 1 = c3pages.length →
      ((detailNavs c3pages)[1]?).map (fun t => navLinkOf t.2.2) = some none) ∧
    (∀ q, c3pages[2]? = some q →
      ((detailNavs c3pages)[1]?).map (fun t => navLinkOf t.2.2) =
        some (some (detailFileName q)))) :=
  ⟨by decide, c3_detail_links c3pages 1 ⟨some 2, "t2", "i2", "l2", "h2"⟩ (by decide)⟩

/- ### Claim C1 -/

/-- The (series, image index) key of a prefix entry, the sort key of the
page numbering. -/
def entryKey (e : Entry) : Nat × Nat := (e.1, e.2.1)

/-- Strict lexicographic order on (series, image index) keys. -/
def keyLt (a b : Nat × Nat) : Prop :=
  a.1 < b.1 ∨ (a.1 = b.1 ∧ a.2 < b.2)

instance : DecidableRel keyLt := fun a b =>
  inferInstanceAs (Decidable (a.1 < b.1 ∨ (a.1 = b.1 ∧ a.2 < b.2)))

/-- The rank of an entry inside its prefix group: how many entries of the
group have a strictly smaller (series, image index) key. -/
def lexRank (entries : List Entry) (e : Entry) : Nat :=
  entries.countP (fun x => decide (keyLt (entryKey x) (entryKey e)))

theorem keyLt_irrefl (k : Nat × Nat) : ¬ keyLt k k := by
  unfold keyLt
  omega

theorem keyLt_asymm (a b : Nat × Nat) : keyLt a b → ¬ keyLt b a := by
  unfold keyLt
  omega

theorem entryLe_iff (a b : Entry) :
    entryLe a b ↔ keyLt (entryKey a) (entryKey b) ∨ entryKey a = entryKey b := by
  unfold entryLe keyLt entryKey
  simp only [Prod.mk.injEq]
  omega

theorem countP_keyLt_of_sorted :
    ∀ (l : List Entry), l.Sorted entryLe → (l.map entryKey).Nodup →
      ∀ (i : Nat) (h : i < l.length),
        l.countP (fun x => decide (keyLt (entryKey x) (entryKey (l.get ⟨i, h⟩)))) = i := by
  intro l
  induction l with
  | nil =>
    intro _ _ i h
    exact absurd h (by simp)
  | cons a t ih =>
    intro hs hn i h
    have ha : ∀ x ∈ t, entryLe a x := (List.sorted_cons.mp hs).1
    have ht : t.Sorted entryLe := (List.sorted_cons.mp hs).2
    have hn2 : entryKey a ∉ t.map entryKey ∧ (t.map entryKey).Nodup := by
      rw [List.map_cons, List.nodup_cons] at hn
      exact hn
    cases i with
    | zero =>
      have hget : (a :: t).get ⟨0, h⟩ = a := rfl
      rw [hget, List.countP_cons]
      have hpa : decide (keyLt (entryKey a) (entryKey a)) = false := by
        simp [keyLt_irrefl]
      have hz : t.countP (fun x => decide (keyLt (entryKey x) (entryKey a))) = 0 := by
        rw [List.countP_eq_zero]
        intro x hx
        simp only [decide_eq_true_eq]
        intro hlt
        rcases (entryLe_iff a x).mp (ha x hx) with hlt2 | heq
        · exact keyLt_asymm _ _ hlt2 hlt
        · exact keyLt_irrefl _ (heq ▸ hlt)
      rw [hz, hpa]
      simp
    | succ j =>
      have hj : j < t.length := by
        simpa using h
      have hget : (a :: t).get ⟨j+1, h⟩ = t.get ⟨j, hj⟩ := rfl
      rw [hget, List.countP_cons]
      have he : t.get ⟨j, hj⟩ ∈ t := List.get_mem ..
      have hpa : decide (keyLt (entryKey a) (entryKey (t.get ⟨j, hj⟩))) = true := by
        rcases (entryLe_iff a _).mp (ha _ he) with hlt | heq
        · simpa using hlt
        · exfalso
          apply hn2.1
          rw [heq]
          exact List.mem_map_of_mem entryKey he
      rw [ih ht hn2.2 j hj, hpa]
      simp

/-- C1: when the parsed (series, image index) keys of a prefix group are
pairwise distinct, the page numbers assigned to the group are exactly the
dense 1-based sequence 1..N, and the entry ranked k-th (0-based rank k)
under ascending lexicographic key order receives page number k+1. -/
theorem c1_pgnum_dense_ranked (entries : List Entry)
    (hkeys : (entries.map entryKey).Nodup) :
    (assignedPages entries).map Prod.snd = List.range' 1 entries.length ∧
    ∀ e ∈ entries, (e.2.2, lexRank entries e + 1) ∈ assignedPages entries := by
  have hperm : (sortedEntries entries).Perm entries :=
    List.perm_insertionSort entryLe entries
  have hlen : (sortedEntries entries).length = entries.length :=
    List.length_insertionSort ..
  constructor
  · unfold assignedPages
    rw [List.map_map]
    have hfun : (Prod.snd ∘ fun p : Nat × Entry => (p.2.2.2, p.1 + 1)) =
        ((fun n => n + 1) ∘ Prod.fst) := rfl
    rw [hfun, ← List.map_map, List.enum_map_fst, hlen, List.range'_eq_map_range]
    apply List.map_congr_left
    intro n _
    omega
  · intro e he
    have hes : e ∈ sortedEntries entries := hperm.mem_iff.mpr he
    obtain ⟨⟨i, hi⟩, hget⟩ := List.mem_iff_get.mp hes
    have hsorted : (sortedEntries entries).Sorted entryLe :=
      List.sorted_insertionSort ..
    have hnd : ((sortedEntries entries).map entryKey).Nodup :=
      ((hperm.map entryKey).nodup_iff).mpr hkeys
    have hcount := countP_keyLt_of_sorted _ hsorted hnd i hi
    rw [hget] at hcount
    have hrank : lexRank entries e = i := by
      unfold lexRank
      rw [← hperm.countP_eq]
      exact hcount
    have hi2 : i < (assignedPages entries).length := by
      unfold assignedPages
      simpa [List.enum_length] using hi
    have hval : (assignedPages entries).get ⟨i, hi2⟩ = (e.2.2, i + 1) := by
      unfold assignedPages
      simp only [List.get_eq_getElem, List.getElem_map, List.getElem_enum]
      rw [show (sortedEntries entries)[i] = e from hget]
    rw [hrank]
    rw [← hval]
    exact List.get_mem ..

/-- C1 witness: the spec example, three files AA001-01.jpg, AA001-02.jpg,
AA002-01.jpg of prefix AA, keys (1,1), (1,2), (2,1): page numbers 1, 2, 3. -/
def c1entries : List Entry := [(1, 1, "h1"), (1, 2, "h2"), (2, 1, "h3")]

theorem c1_witness :
    (c1entries.map entryKey).Nodup ∧
    ((assignedPages c1entries).map Prod.snd = List.range' 1 c1entries.length ∧
     ∀ e ∈ c1entries, (e.2.2, lexRank c1entries e + 1) ∈ assignedPages c1entries) :=
  ⟨by decide, c1_pgnum_dense_ranked c1entries (by decide)⟩

/- ### Claim C5 -/

theorem mem_picJoin_iff (db : DB) (pt : PicTagRow) (p : PicRow) :
    (pt, p) ∈ db.picTags.flatMap (fun pt2 =>
        (db.pics.filter (fun q => q.id == pt2.pic)).map (fun q => (pt2, q))) ↔
      pt ∈ db.picTags ∧ p ∈ db.pics ∧ p.id = pt.pic := by
  simp only [List.mem_flatMap, List.mem_map, List.mem_filter, beq_iff_eq]
  constructor
  · rintro ⟨pt2, hpt2, p2, ⟨hp2, hid⟩, heq⟩
    injection heq with h1 h2
    subst h1
    subst h2
    exact ⟨hpt2, hp2, hid⟩
  · rintro ⟨hpt, hp, hid⟩
    exact ⟨pt, hpt, p, ⟨hp, hid⟩, rfl⟩

theorem titleRowFilter_iff (db : DB) (book : String) (r : PicTagRow × PicRow) :
    titleRowFilter db book r = true ↔
      (some r.1.tag = titleTagOf db ∧ r.2.book = book ∧
       ∃ v, r.1.value = some v ∧ v ≠ "") := by
  unfold titleRowFilter
  cases h : titleTagOf db with
  | none => simp [h]
  | some tid =>
    cases hv : r.1.value with
    | none => simp [h, hv]
    | some v =>
      simp only [h, hv, Bool.and_eq_true, beq_iff_eq, bne_iff_ne, Option.some.injEq]
      constructor
      · rintro ⟨⟨h1, h2⟩, h3⟩
        exact ⟨h1, h2, v, rfl, h3⟩
      · rintro ⟨h1, h2, v2, rfl, h3⟩
        exact ⟨⟨h1, h2⟩, h3⟩

theorem mem_bookIndexRows_iff (db : DB) (book : String) (pt : PicTagRow) (p : PicRow) :
    (pt, p) ∈ bookIndexRows db book ↔
      (pt ∈ db.picTags ∧ p ∈ db.pics ∧ p.id = pt.pic ∧
       some pt.tag = titleTagOf db ∧ p.book = book ∧
       ∃ v, pt.value = some v ∧ v ≠ "") := by
  rw [bookIndexRows, (List.perm_insertionSort valueLe _).mem_iff, List.mem_filter,
      mem_picJoin_iff, titleRowFilter_iff]
  tauto

/-- C5: the index listing of a book holds exactly the joined (tag value,
picture) rows whose tag is the title tag, whose picture belongs to the
book, and whose value is present and non-empty; the listing is sorted by
the title value; every picture of the book is in the page list, and a
picture of the book with no non-empty title value appears in no index row
while still being in the page list. -/
theorem c5_index_exactly_titled (db : DB) (book : String) :
    (∀ pt p, (pt, p) ∈ bookIndexRows db book ↔
       (pt ∈ db.picTags ∧ p ∈ db.pics ∧ p.id = pt.pic ∧
        some pt.tag = titleTagOf db ∧ p.book = book ∧
        ∃ v, pt.value = some v ∧ v ≠ "")) ∧
    (bookIndexRows db book).Sorted valueLe ∧
    (∀ p ∈ db.pics, p.book = book →
       (p ∈ bookPics db book ∧
        ((¬ ∃ pt ∈ db.picTags, pt.pic = p.id ∧ some pt.tag = titleTagOf db ∧
            ∃ v, pt.value = some v ∧ v ≠ "") →
          ∀ pt, (pt, p) ∉ bookIndexRows db book))) := by
  refine ⟨mem_bookIndexRows_iff db book, List.sorted_insertionSort .., ?_⟩
  intro p hp hbook
  constructor
  · rw [bookPics, (List.perm_insertionSort rowPgLe _).mem_iff, List.mem_filter]
    exact ⟨hp, by simp [hbook]⟩
  · intro hno pt hmem
    obtain ⟨hpt, _, hid, htag, _, v, hv, hne⟩ :=
      (mem_bookIndexRows_iff db book pt p).mp hmem
    exact hno ⟨pt, hpt, hid.symm, htag, v, hv, hne⟩

/-- C5 witness: a two-picture book where only one picture has a non-empty
title. -/
def c5db : DB :=
  { pics := [⟨1, "A001-01.jpg", none, "B", "A", "h1", some 1, "B", 1⟩,
             ⟨2, "A001-02.jpg", none, "B", "A", "h2", some 2, "B", 1⟩],
    tags := [⟨1, "str", "title", "Image Title"⟩],
    picTags := [⟨1, 1, 1, some "Soup"⟩, ⟨2, 2, 1, none⟩] }

theorem c5_witness :
    ((⟨1, 1, 1, some "Soup"⟩ : PicTagRow),
     (⟨1, "A001-01.jpg", none, "B", "A", "h1", some 1, "B", 1⟩ : PicRow)) ∈
        bookIndexRows c5db "B" ∧
    (⟨2, "A001-02.jpg", none, "B", "A", "h2", some 2, "B", 1⟩ : PicRow) ∈
        bookPics c5db "B" :=
  ⟨((c5_index_exactly_titled c5db "B").1 _ _).mpr
      (by refine ⟨by decide, by decide, rfl, by decide, rfl, "Soup", rfl, by decide⟩),
   (((c5_index_exactly_titled c5db "B").2.2 _ (by decide) rfl).1)⟩

/- ### Claims C9 and C2: frame of the reindex pass -/

/-- Frame relation between two pics-table states: every old row survives
with its id and sha3 intact, and a row whose sha3 is not in the touched
set is entirely unchanged. -/
def picsFrame (old new : List PicRow) (touched : List String) : Prop :=
  ∀ r ∈ old, ∃ r2 ∈ new, r2.id = r.id ∧ r2.sha3 = r.sha3 ∧
    (r.sha3 ∉ touched → r2 = r)

theorem picsFrame_refl (l : List PicRow) (t : List String) : picsFrame l l t :=
  fun r hr => ⟨r, hr, rfl, rfl, fun _ => rfl⟩

theorem picsFrame_mono {old new : List PicRow} {t t2 : List String}
    (h : picsFrame old new t) (ht : ∀ s ∈ t, s ∈ t2) : picsFrame old new t2 :=
  fun r hr => by
    obtain ⟨r2, hr2, hid, hsha, hun⟩ := h r hr
    exact ⟨r2, hr2, hid, hsha, fun hn => hun (fun hc => hn (ht _ hc))⟩

theorem picsFrame_trans {a b d : List PicRow} {t1 t2 t3 : List String}
    (h1 : picsFrame a b t1) (h2 : picsFrame b d t2)
    (ht1 : ∀ s ∈ t1, s ∈ t3) (ht2 : ∀ s ∈ t2, s ∈ t3) : picsFrame a d t3 :=
  fun r hr => by
    obtain ⟨r2, hr2, hid, hsha, hun⟩ := h1 r hr
    obtain ⟨r3, hr3, hid2, hsha2, hun2⟩ := h2 r2 hr2
    refine ⟨r3, hr3, hid2.trans hid, hsha2.trans hsha, fun hn => ?_⟩
    have e2 : r2 = r := hun (fun hc => hn (ht1 _ hc))
    have e3 : r3 = r2 := hun2 (by rw [hsha]; exact fun hc => hn (ht2 _ hc))
    exact e3.trans e2

theorem insertTagIfAbsent_pics (db : DB) (a b d : String) :
    (insertTagIfAbsent db a b d).pics = db.pics := by
  unfold insertTagIfAbsent
  split <;> rfl

theorem insertTagIfAbsent_picTags (db : DB) (a b d : String) :
    (insertTagIfAbsent db a b d).picTags = db.picTags := by
  unfold insertTagIfAbsent
  split <;> rfl

theorem ensureTags_pics (db : DB) : (ensureTags db).pics = db.pics := by
  unfold ensureTags
  rw [insertTagIfAbsent_pics, insertTagIfAbsent_pics, insertTagIfAbsent_pics]

theorem ensureTags_picTags (db : DB) : (ensureTags db).picTags = db.picTags := by
  unfold ensureTags
  rw [insertTagIfAbsent_picTags, insertTagIfAbsent_picTags, insertTagIfAbsent_picTags]

theorem upsertPic_frame (db : DB) (book : String) (cat : Option String)
    (fn rel pfx hash : String) :
    picsFrame db.pics (upsertPic db book cat fn rel pfx hash).pics [hash] := by
  unfold upsertPic
  split
  · intro r hr
    refine ⟨_, List.mem_map_of_mem _ hr, ?_, ?_, ?_⟩
    · split <;> rfl
    · split <;> rfl
    · intro hn
      rw [if_neg (by simp only [beq_iff_eq]; simpa using hn)]
  · intro r hr
    exact ⟨r, List.mem_append_left _ hr, rfl, rfl, fun _ => rfl⟩

theorem upsertPic_picTags (db : DB) (book : String) (cat : Option String)
    (fn rel pfx hash : String) :
    (upsertPic db book cat fn rel pfx hash).picTags = db.picTags := by
  unfold upsertPic
  split <;> rfl

theorem insertTitleTag_pics (db : DB) (hash : String) :
    (insertTitleTag db hash).pics = db.pics := by
  unfold insertTitleTag
  split <;> rfl

theorem insertTitleTag_picTags_sub (db : DB) (hash : String) :
    ∀ pt ∈ db.picTags, pt ∈ (insertTitleTag db hash).picTags := by
  unfold insertTitleTag
  split
  · intro pt hpt
    exact List.mem_append_left _ hpt
  · intro pt hpt
    exact hpt

/-- All content hashes recorded in a prefix map. -/
def mHashes (m : PrefixMap) : List String :=
  m.flatMap (fun kv => kv.2.map (fun e => e.2.2))

theorem mHashes_addPrefixEntry (m : PrefixMap) (pfx : String) (e : Entry) :
    ∀ h ∈ mHashes (addPrefixEntry m pfx e), h ∈ mHashes m ∨ h = e.2.2 := by
  intro h hm
  unfold addPrefixEntry at hm
  split at hm
  · simp only [mHashes, List.mem_flatMap, List.mem_map] at hm
    obtain ⟨kv2, ⟨kv, hkv, heq⟩, e2, he2, hh⟩ := hm
    by_cases hp : (kv.1 == pfx) = true
    · rw [if_pos hp] at heq
      rw [← heq] at he2
      rcases List.mem_append.mp he2 with h1 | h1
      · left
        simp only [mHashes, List.mem_flatMap, List.mem_map]
        exact ⟨kv, hkv, e2, h1, hh⟩
      · right
        rw [← hh, List.mem_singleton.mp h1]
    · rw [if_neg hp] at heq
      left
      simp only [mHashes, List.mem_flatMap, List.mem_map]
      exact ⟨kv, hkv, e2, by rw [heq]; exact he2, hh⟩
  · rw [mHashes, List.flatMap_append] at hm
    rcases List.mem_append.mp hm with h1 | h1
    · exact Or.inl h1
    · right
      simp only [List.flatMap_cons, List.flatMap_nil, List.map_cons, List.map_nil,
        List.append_nil] at h1
      exact List.mem_singleton.mp h1

theorem mHashes_cons (kv : String × List Entry) (m : PrefixMap) :
    mHashes (kv :: m) = kv.2.map (fun e => e.2.2) ++ mHashes m := by
  rw [mHashes, List.flatMap_cons]
  rfl

theorem reindexFile_frame (d : DB) (m : PrefixMap) (f : ScanFile)
    (d2 : DB) (m2 : PrefixMap) (h : reindexFile d m f = .ok (d2, m2)) :
    picsFrame d.pics d2.pics [f.sha3] ∧
    (∀ pt ∈ d.picTags, pt ∈ d2.picTags) ∧
    (∀ hh ∈ mHashes m2, hh ∈ mHashes m ∨ hh = f.sha3) := by
  unfold reindexFile at h
  cases hp : parseFn f.fn with
  | none =>
    rw [hp] at h
    exact absurd h (by simp)
  | some g =>
    obtain ⟨pfx, series, imgnum⟩ := g
    rw [hp] at h
    cases hd : dirSplit f.rel with
    | error e =>
      rw [hd] at h
      exact absurd h (by simp)
    | ok bc =>
      obtain ⟨book, cat⟩ := bc
      rw [hd] at h
      simp only [Except.ok.injEq, Prod.mk.injEq] at h
      obtain ⟨hdb, hm⟩ := h
      subst hdb
      subst hm
      refine ⟨?_, ?_, mHashes_addPrefixEntry m pfx (series, imgnum, f.sha3)⟩
      · have h1 := upsertPic_frame d book cat f.fn f.relStr pfx f.sha3
        split
        · exact h1
        · have h2 : picsFrame (upsertPic d book cat f.fn f.relStr pfx f.sha3).pics
              (insertTitleTag (upsertPic d book cat f.fn f.relStr pfx f.sha3) f.sha3).pics
              ([] : List String) := by
            rw [insertTitleTag_pics]
            exact picsFrame_refl _ _
          exact picsFrame_trans h1 h2 (fun s hs => hs)
            (fun s hs => absurd hs (List.not_mem_nil s))
      · intro pt hpt
        have h2 : pt ∈ (upsertPic d book cat f.fn f.relStr pfx f.sha3).picTags := by
          rw [upsertPic_picTags]
          exact hpt
        split
        · exact h2
        · exact insertTitleTag_picTags_sub _ _ _ h2

theorem reindexLoop_frame :
    ∀ (fs : List ScanFile) (s res : DB × PrefixMap),
      reindexLoop s fs = .ok res →
      picsFrame s.1.pics res.1.pics (fs.map ScanFile.sha3) ∧
      (∀ pt ∈ s.1.picTags, pt ∈ res.1.picTags) ∧
      (∀ h ∈ mHashes res.2, h ∈ mHashes s.2 ∨ h ∈ fs.map ScanFile.sha3) := by
  intro fs
  induction fs with
  | nil =>
    intro s res h
    simp only [reindexLoop, Except.ok.injEq] at h
    subst h
    exact ⟨picsFrame_refl _ _, fun pt hpt => hpt, fun h hm => Or.inl hm⟩
  | cons f fs ih =>
    intro s res h
    simp only [reindexLoop] at h
    split at h
    next e heq => exact absurd h (by simp)
    next s2 heq =>
      obtain ⟨hframe, htags, hm⟩ := reindexFile_frame s.1 s.2 f s2.1 s2.2 heq
      obtain ⟨hframe2, htags2, hm2⟩ := ih s2 res h
      refine ⟨?_, fun pt hpt => htags2 pt (htags pt hpt), ?_⟩
      · refine picsFrame_trans hframe hframe2 ?_ ?_
        · intro x hx
          rw [List.mem_singleton.mp hx]
          simp
        · intro x hx
          simp only [List.map_cons, List.mem_cons]
          exact Or.inr hx
      · intro hh hmem
        rcases hm2 hh hmem with h1 | h1
        · rcases hm hh h1 with h2 | h2
          · exact Or.inl h2
          · right
            simp [h2]
        · right
          simp only [List.map_cons, List.mem_cons]
          exact Or.inr h1

theorem foldlUpdates_frame :
    ∀ (ups : List (String × Nat)) (pics : List PicRow),
      picsFrame pics
        (ups.foldl (fun ps hp => ps.map (fun r =>
          if r.sha3 == hp.1 then { r with pgnum := some hp.2 } else r)) pics)
        (ups.map Prod.fst) := by
  intro ups
  induction ups with
  | nil => intro pics; exact picsFrame_refl _ _
  | cons hp t ih =>
    intro pics
    rw [List.foldl_cons]
    have h1 : picsFrame pics
        (pics.map (fun r => if r.sha3 == hp.1 then { r with pgnum := some hp.2 } else r))
        [hp.1] := by
      intro r hr
      refine ⟨_, List.mem_map_of_mem _ hr, ?_, ?_, ?_⟩
      · split <;> rfl
      · split <;> rfl
      · intro hn
        rw [if_neg (by simp only [beq_iff_eq]; simpa using hn)]
    refine picsFrame_trans h1 (ih _) ?_ ?_
    · intro x hx
      rw [List.mem_singleton.mp hx]
      simp
    · intro x hx
      simp only [List.map_cons, List.mem_cons]
      exact Or.inr hx

theorem setGroupPgnums_frame (pics : List PicRow) (entries : List Entry) :
    picsFrame pics (setGroupPgnums pics entries) (entries.map (fun e => e.2.2)) := by
  rw [setGroupPgnums]
  refine picsFrame_mono (foldlUpdates_frame (assignedPages entries) pics) ?_
  intro s hs
  simp only [assignedPages, List.map_map, List.mem_map] at hs
  obtain ⟨p, hp, hval⟩ := hs
  have hmem : p.2 ∈ sortedEntries entries := by
    have := List.enum_map_snd (sortedEntries entries)
    rw [← this]
    exact List.mem_map_of_mem Prod.snd hp
  have hmem2 : p.2 ∈ entries :=
    (List.perm_insertionSort entryLe entries).subset hmem
  rw [← hval]
  exact List.mem_map_of_mem _ hmem2

theorem setAllPgnums_frame :
    ∀ (m : PrefixMap) (pics : List PicRow),
      picsFrame pics (setAllPgnums pics m) (mHashes m) := by
  intro m
  induction m with
  | nil => intro pics; exact picsFrame_refl _ _
  | cons kv t ih =>
    intro pics
    rw [setAllPgnums, List.foldl_cons]
    refine picsFrame_trans (setGroupPgnums_frame pics kv.2) (ih _) ?_ ?_
    · intro x hx
      rw [mHashes_cons]
      exact List.mem_append_left _ hx
    · intro x hx
      rw [mHashes_cons]
      exact List.mem_append_right _ hx

theorem reindex_frame_aux (db : DB) (files : List ScanFile) (db2 : DB)
    (hok : reindex db files = .ok db2) :
    (∀ r ∈ db.pics, ∃ r2 ∈ db2.pics, r2.id = r.id ∧ r2.sha3 = r.sha3 ∧
       (r.sha3 ∉ files.map ScanFile.sha3 → r2 = { r with valid := 0 })) ∧
    (∀ pt ∈ db.picTags, pt ∈ db2.picTags) := by
  simp only [reindex] at hok
  split at hok
  next e heq => exact absurd hok (by simp)
  next db3 m heq =>
    simp only [Except.ok.injEq] at hok
    subst hok
    have hloop := reindexLoop_frame files (validZero (ensureTags db), []) (db3, m) heq
    have hstart : ∀ r ∈ db.pics,
        ({ r with valid := 0 } : PicRow) ∈ (validZero (ensureTags db)).pics := by
      intro r hr
      have hvz : (validZero (ensureTags db)).pics =
          (ensureTags db).pics.map (fun r => { r with valid := 0 }) := rfl
      rw [hvz, ensureTags_pics]
      exact List.mem_map_of_mem _ hr
    constructor
    · intro r hr
      obtain ⟨r2, hr2, hid, hsha, hun⟩ := hloop.1 _ (hstart r hr)
      obtain ⟨r3, hr3, hid2, hsha2, hun2⟩ := setAllPgnums_frame m db3.pics r2 hr2
      refine ⟨r3, hr3, by rw [hid2, hid], by rw [hsha2, hsha], fun hn => ?_⟩
      have e2 : r2 = { r with valid := 0 } := hun (by simpa using hn)
      have hn2 : r2.sha3 ∉ mHashes m := by
        rw [hsha]
        intro hc
        rcases hloop.2.2 _ hc with h1 | h1
        · exact absurd h1 (by simp [mHashes])
        · exact hn (by simpa using h1)
      exact (hun2 hn2).trans e2
    · intro pt hpt
      have h1 : pt ∈ (validZero (ensureTags db)).picTags := by
        have hvz : (validZero (ensureTags db)).picTags = (ensureTags db).picTags := rfl
        rw [hvz, ensureTags_picTags]
        exact hpt
      exact hloop.2.1 pt h1

/-- C9: a successful reindex never deletes a pics row and never touches an
existing pic_tags row: every old pics row survives with its id and sha3
unchanged (so only the book, category, filename, path, prefix, valid and
pgnum fields can have been updated), a row whose content hash is no longer
among the scanned files is exactly the old row with valid set to 0, and
every old pic_tags row, its value included, is still present. -/
theorem c9_reindex_preserves (db : DB) (files : List ScanFile) (db2 : DB)
    (hok : reindex db files = .ok db2) :
    (∀ r ∈ db.pics, ∃ r2 ∈ db2.pics, r2.id = r.id ∧ r2.sha3 = r.sha3 ∧
       (r.sha3 ∉ files.map ScanFile.sha3 → r2 = { r with valid := 0 })) ∧
    (∀ pt ∈ db.picTags, pt ∈ db2.picTags) :=
  reindex_frame_aux db files db2 hok

/-- A catalog holding one picture (hash hOld, with a title value) whose
file is about to disappear, and a scan finding one new file (hash hNew). -/
def c9db : DB :=
  { pics := [⟨1, "Z001-01.jpg", none, "B", "Z", "hOld", some 1, "B", 1⟩],
    tags := [],
    picTags := [⟨1, 1, 1, some "OldTitle"⟩] }

def c9files : List ScanFile := [⟨["B"], "B", "A001-01.jpg", "hNew"⟩]

/-- The catalog after reindexing c9db over c9files. -/
def c9db2 : DB :=
  match reindex c9db c9files with
  | .ok d => d
  | .error _ => emptyDB

theorem c9_witness :
    reindex c9db c9files = .ok c9db2 ∧
    ((∀ r ∈ c9db.pics, ∃ r2 ∈ c9db2.pics, r2.id = r.id ∧ r2.sha3 = r.sha3 ∧
        (r.sha3 ∉ c9files.map ScanFile.sha3 → r2 = { r with valid := 0 })) ∧
     (∀ pt ∈ c9db.picTags, pt ∈ c9db2.picTags)) :=
  ⟨rfl, c9_reindex_preserves c9db c9files c9db2 rfl⟩

/- ### Claim C2 -/

theorem dictLookup_eq_none_of_not_mem (d : List (String × String)) (k : String)
    (h : k ∉ d.map Prod.fst) : dictLookup d k = none := by
  have hf : d.find? (fun kv => kv.1 == k) = none := by
    rw [List.find?_eq_none]
    intro kv hkv
    simp only [beq_iff_eq]
    intro he
    exact h (by rw [← he]; exact List.mem_map_of_mem Prod.fst hkv)
  rw [dictLookup, hf]
  rfl

theorem dictLookup_some_mem (d : List (String × String)) (k v : String)
    (h : dictLookup d k = some v) : k ∈ d.map Prod.fst := by
  rw [dictLookup] at h
  cases hf : d.find? (fun kv => kv.1 == k) with
  | none =>
    rw [hf] at h
    exact absurd h (by simp)
  | some kv =>
    have h1 := List.find?_some hf
    have h2 : kv ∈ d := List.mem_of_find?_eq_some hf
    rw [← beq_iff_eq.mp h1]
    exact List.mem_map_of_mem Prod.fst h2

theorem dictInsert_keys_of_mem (d : List (String × String)) (k0 v : String)
    (h : k0 ∈ d.map Prod.fst) :
    (dictInsert d k0 v).map Prod.fst = d.map Prod.fst := by
  rw [dictInsert, if_pos]
  · rw [List.map_map]
    apply List.map_congr_left
    intro kv _
    by_cases hk : (kv.1 == k0) = true
    · simp only [Function.comp_apply, if_pos hk]
      exact (beq_iff_eq.mp hk).symm
    · simp only [Function.comp_apply, if_neg hk]
  · rw [List.any_eq_true]
    obtain ⟨kv, hkv, hfst⟩ := List.mem_map.mp h
    exact ⟨kv, hkv, by simp [hfst]⟩

theorem copyLoop_error_of_missing :
    ∀ (rows : List PicRow) (dict : List (String × String)) (r : PicRow),
      r ∈ rows → r.sha3 ∉ dict.map Prod.fst →
      ∃ e, copyLoop dict rows = .error e := by
  intro rows
  induction rows with
  | nil =>
    intro dict r hr _
    exact absurd hr (List.not_mem_nil r)
  | cons g gs ih =>
    intro dict r hr hmiss
    rcases List.mem_cons.mp hr with rfl | hr2
    · cases hpg : r.pgnum with
      | none => exact ⟨"TypeError: format of NULL pgnum", by simp [copyLoop, hpg]⟩
      | some n =>
        have hl : dictLookup dict r.sha3 = none :=
          dictLookup_eq_none_of_not_mem dict r.sha3 hmiss
        exact ⟨"KeyError: " ++ r.sha3, by simp [copyLoop, hpg, hl]⟩
    · cases hpg : g.pgnum with
      | none => exact ⟨"TypeError: format of NULL pgnum", by simp [copyLoop, hpg]⟩
      | some n =>
        cases hl : dictLookup dict g.sha3 with
        | none => exact ⟨"KeyError: " ++ g.sha3, by simp [copyLoop, hpg, hl]⟩
        | some v =>
          have hkeys : (dictInsert dict g.sha3 (imgpath g.pfx n g.filename)).map Prod.fst =
              dict.map Prod.fst :=
            dictInsert_keys_of_mem dict g.sha3 _ (dictLookup_some_mem dict g.sha3 v hl)
          obtain ⟨e, he⟩ := ih (dictInsert dict g.sha3 (imgpath g.pfx n g.filename)) r hr2
            (by rw [hkeys]; exact hmiss)
          exact ⟨e, by simp [copyLoop, hpg, hl, he]⟩

theorem picsDict_keys_sub :
    ∀ (scan acc : List (String × String)) (k : String),
      k ∈ ((scan.foldl (fun d kv => dictInsert d kv.1 kv.2) acc).map Prod.fst) →
      k ∈ acc.map Prod.fst ∨ k ∈ scan.map Prod.fst := by
  intro scan
  induction scan with
  | nil =>
    intro acc k h
    exact Or.inl h
  | cons kv t ih =>
    intro acc k h
    rw [List.foldl_cons] at h
    rcases ih (dictInsert acc kv.1 kv.2) k h with h1 | h1
    · rw [dictInsert] at h1
      split at h1
      · rw [List.map_map] at h1
        obtain ⟨kv2, hkv2, hfst⟩ := List.mem_map.mp h1
        by_cases hk : (kv2.1 == kv.1) = true
        · right
          simp only [Function.comp_apply, if_pos hk] at hfst
          rw [← hfst]
          simp
        · left
          simp only [Function.comp_apply, if_neg hk] at hfst
          rw [← hfst]
          exact List.mem_map_of_mem Prod.fst hkv2
      · rw [List.map_append] at h1
        rcases List.mem_append.mp h1 with h2 | h2
        · exact Or.inl h2
        · right
          simp only [List.map_cons, List.map_nil, List.mem_singleton] at h2
          rw [h2]
          simp
    · right
      simp only [List.map_cons, List.mem_cons]
      exact Or.inr h1

/-- C2 counterexample: a catalog row whose content hash is absent from the
scanned tree does make the generator run fail - the image copy loop looks
up pics[hash] and the missing key raises KeyError (the claim says the run
does not fail). -/
def c2db : DB :=
  { pics := [⟨1, "A001-01.jpg", none, "B", "A", "h1", some 1, "B", 1⟩],
    tags := [⟨1, "str", "title", "Image Title"⟩],
    picTags := [] }

theorem c2_counterexample :
    generatorRun c2db [] = .error ("KeyError: " ++ "h1") := by
  rfl

/-- C2 amended: the reindexing pass (tagomatic.py) is where a catalog row
whose hash is no longer among the scanned files is handled without
failing: the row is marked invalid and reported in the disappeared-file
warning listing.  The generator (generator.py), however, fails with a
KeyError when such a row is present in the catalog it reads, rather than
excluding the row from the output. -/
theorem c2_missing_row_warned_generator_fails (db : DB) (files : List ScanFile)
    (db2 : DB) (scan : List (String × String)) (r : PicRow)
    (hr : r ∈ db.pics) (hok : reindex db files = .ok db2)
    (hmiss : r.sha3 ∉ files.map ScanFile.sha3)
    (hmiss2 : r.sha3 ∉ scan.map Prod.fst) :
    (r.filename, r.sha3) ∈ disappeared db2 ∧
    ∃ e, generatorRun db2 scan = .error e := by
  obtain ⟨r2, hr2, hid, hsha, hun⟩ := (reindex_frame_aux db files db2 hok).1 r hr
  have e2 : r2 = { r with valid := 0 } := hun hmiss
  constructor
  · rw [disappeared]
    have hmem : r2 ∈ db2.pics.filter (fun q => q.valid == 0) :=
      List.mem_filter.mpr ⟨hr2, by rw [e2]; rfl⟩
    have : (r.filename, r.sha3) = (r2.filename, r2.sha3) := by rw [e2]
    rw [this]
    exact List.mem_map_of_mem _ hmem
  · have hkeys : r2.sha3 ∉ (picsDict scan).map Prod.fst := by
      rw [hsha]
      intro hc
      rcases picsDict_keys_sub scan [] r.sha3 hc with h1 | h1
      · simp at h1
      · exact hmiss2 h1
    obtain ⟨e, he⟩ := copyLoop_error_of_missing db2.pics (picsDict scan) r2 hr2 hkeys
    exact ⟨e, by simp [generatorRun, he]⟩

theorem c2_witness :
    reindex c9db c9files = .ok c9db2 ∧
    (("Z001-01.jpg", "hOld") ∈ disappeared c9db2 ∧
     ∃ e, generatorRun c9db2 [("hNew", "src/B/A001-01.jpg")] = .error e) :=
  ⟨rfl,
   c2_missing_row_warned_generator_fails c9db c9files c9db2
     [("hNew", "src/B/A001-01.jpg")]
     ⟨1, "Z001-01.jpg", none, "B", "Z", "hOld", some 1, "B", 1⟩
     (by decide) rfl (by decide) (by decide)⟩

/- ### Claim C6: string facts about the generated names -/

theorem digitChar_ne_slash (m : Nat) : (Nat.digitChar m != '/') = true := by
  rcases Nat.lt_or_ge m 16 with h | h
  · interval_cases m <;> decide
  · have h0 : Nat.digitChar m = '*' := by
      rw [Nat.digitChar]
      repeat rw [if_neg (by omega)]
    rw [h0]
    decide

theorem toDigitsCore_chars :
    ∀ (f n : Nat) (acc : List Char) (c : Char),
      c ∈ Nat.toDigitsCore 10 f n acc → c ∈ acc ∨ ∃ m, c = Nat.digitChar m := by
  intro f
  induction f with
  | zero =>
    intro n acc c h
    rw [Nat.toDigitsCore] at h
    exact Or.inl h
  | succ f ih =>
    intro n acc c h
    rw [Nat.toDigitsCore] at h
    split at h
    · rcases List.mem_cons.mp h with h1 | h1
      · exact Or.inr ⟨n % 10, h1⟩
      · exact Or.inl h1
    · rcases ih (n / 10) (Nat.digitChar (n % 10) :: acc) c h with h1 | h1
      · rcases List.mem_cons.mp h1 with h2 | h2
        · exact Or.inr ⟨n % 10, h2⟩
        · exact Or.inl h2
      · exact Or.inr h1

theorem repr_no_slash (n : Nat) : ∀ c ∈ (toString n).data, (c != '/') = true := by
  intro c hc
  have hc2 : c ∈ Nat.toDigitsCore 10 (n + 1) n [] := hc
  rcases toDigitsCore_chars (n + 1) n [] c hc2 with h1 | ⟨m, hm⟩
  · exact absurd h1 (List.not_mem_nil c)
  · rw [hm]
    exact digitChar_ne_slash m

theorem pad4_no_slash (n : Nat) : ∀ c ∈ (pad4 n).data, (c != '/') = true := by
  intro c hc
  rw [pad4] at hc
  split at hc
  · rw [String.data_append] at hc
    rcases List.mem_append.mp hc with h1 | h1
    · have := List.eq_of_mem_replicate h1
      rw [this]
      decide
    · exact repr_no_slash n c h1
  · exact repr_no_slash n c hc

theorem takeWhile_append_all (p : Char → Bool) (l1 l2 : List Char)
    (h : ∀ x ∈ l1, p x = true) :
    (l1 ++ l2).takeWhile p = l1 ++ l2.takeWhile p := by
  induction l1 with
  | nil => rfl
  | cons x t ih =>
    rw [List.cons_append, List.takeWhile_cons, if_pos (h x (List.mem_cons_self x t)),
        ih (fun y hy => h y (List.mem_cons_of_mem x hy))]
    rfl

theorem dropWhile_append_all (p : Char → Bool) (l1 l2 : List Char)
    (h : ∀ x ∈ l1, p x = true) :
    (l1 ++ l2).dropWhile p = l2.dropWhile p := by
  induction l1 with
  | nil => rfl
  | cons x t ih =>
    rw [List.cons_append, List.dropWhile_cons, if_pos (h x (List.mem_cons_self x t)),
        ih (fun y hy => h y (List.mem_cons_of_mem x hy))]

theorem stringMk_data (s : String) : String.mk s.data = s := rfl

theorem baseName_of_append (pre s : String) (rest : List Char)
    (hp : pre.data.reverse = '/' :: rest)
    (hs : ∀ c ∈ s.data, (c != '/') = true) : baseName (pre ++ s) = s := by
  rw [baseName, String.data_append, List.reverse_append, hp]
  rw [takeWhile_append_all _ _ _ (fun x hx => hs x (List.mem_reverse.mp hx))]
  simp

theorem splitextCs_append (base t : List Char)
    (hb : ∃ c ∈ base, ¬ c = '.') (ht : ∀ c ∈ t, (c != '.') = true) :
    splitextCs (base ++ '.' :: t) = (base, '.' :: t) := by
  have hrev : (base ++ '.' :: t).reverse = t.reverse ++ '.' :: base.reverse := by
    rw [List.reverse_append, List.reverse_cons, List.append_assoc]
    rfl
  have htake : (t.reverse ++ '.' :: base.reverse).takeWhile (fun c => c != '.') =
      t.reverse := by
    rw [takeWhile_append_all _ _ _ (fun x hx => ht x (List.mem_reverse.mp hx))]
    have h1 : List.takeWhile (fun c => c != '.') ('.' :: base.reverse) = [] := rfl
    rw [h1, List.append_nil]
  have hdrop : (t.reverse ++ '.' :: base.reverse).dropWhile (fun c => c != '.') =
      '.' :: base.reverse := by
    rw [dropWhile_append_all _ _ _ (fun x hx => ht x (List.mem_reverse.mp hx))]
    rfl
  rw [splitextCs]
  simp only [hrev, htake, hdrop]
  rw [if_pos]
  · rw [List.reverse_reverse, List.reverse_reverse]
  · rw [List.any_eq_true]
    obtain ⟨c, hc, hcd⟩ := hb
    exact ⟨c, List.mem_reverse.mpr hc, by simpa using hcd⟩


theorem dropWhile_head_false (p : Char → Bool) :
    ∀ (l : List Char) (d : Char) (rest : List Char),
      l.dropWhile p = d :: rest → p d = false := by
  intro l
  induction l with
  | nil =>
    intro d rest h
    exact absurd h (by simp)
  | cons x t ih =>
    intro d rest h
    rw [List.dropWhile_cons] at h
    split at h
    · exact ih d rest h
    · rename_i hx
      injection h with h1 h2
      subst h1
      simpa using hx

theorem splitextExt_shape (s : String) (h : splitextExt s ≠ "") :
    ∃ base t, s.data = base ++ '.' :: t ∧ (∀ c ∈ t, (c != '.') = true) ∧
      splitextExt s = String.mk ('.' :: t) ∧ splitextRoot s = String.mk base := by
  rcases hdrop : s.data.reverse.dropWhile (fun c => c != '.') with _ | ⟨d, pre⟩
  · exfalso
    apply h
    rw [splitextExt, splitextCs, hdrop]
  · have hd : d = '.' := by
      have h1 := dropWhile_head_false (fun c => c != '.') s.data.reverse d pre hdrop
      simpa using h1
    subst hd
    have hcs : splitextCs s.data =
        if pre.any (fun c => c != '.') then
          (pre.reverse, '.' :: (s.data.reverse.takeWhile (fun c => c != '.')).reverse)
        else (s.data, []) := by
      rw [splitextCs, hdrop]
    by_cases hany : pre.any (fun c => c != '.') = true
    · refine ⟨pre.reverse, (s.data.reverse.takeWhile (fun c => c != '.')).reverse,
        ?_, ?_, ?_, ?_⟩
      · have hsplit : s.data.reverse.takeWhile (fun c => c != '.') ++
            s.data.reverse.dropWhile (fun c => c != '.') = s.data.reverse :=
          List.takeWhile_append_dropWhile (fun c => c != '.') s.data.reverse
        rw [hdrop] at hsplit
        calc s.data = s.data.reverse.reverse := (List.reverse_reverse _).symm
          _ = (s.data.reverse.takeWhile (fun c => c != '.') ++ '.' :: pre).reverse := by
              rw [hsplit]
          _ = pre.reverse ++ '.' ::
                (s.data.reverse.takeWhile (fun c => c != '.')).reverse := by
              rw [List.reverse_append, List.reverse_cons, List.append_assoc]
              rfl
      · intro c hc
        have h2 : c ∈ s.data.reverse.takeWhile (fun x => x != '.') :=
          List.mem_reverse.mp hc
        have h3 := List.mem_takeWhile_imp h2
        simpa using h3
      · rw [splitextExt, hcs, if_pos hany]
      · rw [splitextRoot, hcs, if_pos hany]
    · exfalso
      apply h
      rw [splitextExt, hcs, if_neg hany]

theorem pyLowerChar_ne_low (c d : Char) (hc : (c != d) = true) (hd : d.toNat < 65) :
    (pyLowerChar c != d) = true := by
  rw [bne_iff_ne] at hc ⊢
  rw [pyLowerChar]
  split
  · rename_i hup
    intro hcon
    have e1 : (Char.ofNat (c.toNat + 32)).toNat = d.toNat := congrArg Char.toNat hcon
    have hb1 : 65 ≤ c.toNat := hup.1
    have hb2 : c.toNat ≤ 90 := hup.2
    have e2 : (Char.ofNat (c.toNat + 32)).toNat = c.toNat + 32 := by
      unfold Char.ofNat
      rw [dif_pos (Or.inl (by omega : c.toNat + 32 < 55296))]
      rfl
    omega
  · exact hc

theorem imgname_no_slash (pfx : String) (n : Nat) (fn : String)
    (hpfx : ∀ c ∈ (pyLower pfx).data, (c != '/') = true)
    (hext : ∀ c ∈ (splitextExt fn).data, (c != '/') = true) :
    ∀ c ∈ (imgname pfx n fn).data, (c != '/') = true := by
  intro c hc
  rw [imgname] at hc
  simp only [String.data_append, List.mem_append] at hc
  rcases hc with (((h | h) | h) | h) | h
  · have h2 : c = 'a' ∨ c = 'r' ∨ c = '-' := by simpa using h
    rcases h2 with rfl | rfl | rfl <;> decide
  · exact hpfx c h
  · have h2 : c = '-' := by simpa using h
    rw [h2]
    decide
  · exact pad4_no_slash n c h
  · obtain ⟨c0, hc0, rfl⟩ := List.mem_map.mp h
    exact pyLowerChar_ne_low c0 '/' (hext c0 hc0) (by decide)

theorem mogrify_thumb (pfx : String) (n : Nat) (fn : String)
    (hpfx : ∀ c ∈ (pyLower pfx).data, (c != '/') = true)
    (hne : splitextExt fn ≠ "")
    (hext : ∀ c ∈ (splitextExt fn).data, (c != '/') = true) :
    "thumbs/" ++ mogrifyName (imgpath pfx n fn) = thumbpath pfx n := by
  obtain ⟨base, t, hdata, ht, hextEq, hrootEq⟩ := splitextExt_shape fn hne
  have hbase : baseName (imgpath pfx n fn) = imgname pfx n fn := by
    rw [imgpath]
    exact baseName_of_append "images/" (imgname pfx n fn) "segami".data (by decide)
      (imgname_no_slash pfx n fn hpfx hext)
  have hext2 : (pyLower (splitextExt fn)).data = '.' :: t.map pyLowerChar := by
    rw [hextEq]
    show (('.' :: t).map pyLowerChar) = '.' :: t.map pyLowerChar
    rw [List.map_cons, show pyLowerChar '.' = '.' from by decide]
  have hroot : splitextRoot (imgname pfx n fn) =
      "ar-" ++ pyLower pfx ++ "-" ++ pad4 n := by
    rw [splitextRoot]
    have hdata2 : (imgname pfx n fn).data =
        ("ar-" ++ pyLower pfx ++ "-" ++ pad4 n).data ++ '.' :: t.map pyLowerChar := by
      rw [show imgname pfx n fn =
            ("ar-" ++ pyLower pfx ++ "-" ++ pad4 n) ++ pyLower (splitextExt fn) from rfl,
          String.data_append, hext2]
    rw [hdata2, splitextCs_append]
    · refine ⟨'a', ?_, by decide⟩
      simp only [String.data_append, List.mem_append]
      exact Or.inl (Or.inl (Or.inl (by decide)))
    · intro c hc
      obtain ⟨c0, hc0, rfl⟩ := List.mem_map.mp hc
      exact pyLowerChar_ne_low c0 '.' (ht c0 hc0) (by decide)
  rw [mogrifyName, hbase, hroot, thumbpath, imgname,
      show pyLower (splitextExt "_.png") = ".png" from by decide]

theorem foldl_dictInsert_eq :
    ∀ (scan acc : List (String × String)),
      (∀ k ∈ scan.map Prod.fst, k ∉ acc.map Prod.fst) →
      (scan.map Prod.fst).Nodup →
      scan.foldl (fun d kv => dictInsert d kv.1 kv.2) acc = acc ++ scan := by
  intro scan
  induction scan with
  | nil =>
    intro acc _ _
    simp
  | cons kv t ih =>
    intro acc hdisj hnd
    rw [List.map_cons, List.nodup_cons] at hnd
    rw [List.foldl_cons]
    have h1 : dictInsert acc kv.1 kv.2 = acc ++ [kv] := by
      have hcond : ¬ (acc.any fun x => x.1 == kv.1) = true := by
        rw [List.any_eq_true]
        rintro ⟨x, hx, hbeq⟩
        apply hdisj kv.1 (by simp)
        rw [← beq_iff_eq.mp hbeq]
        exact List.mem_map_of_mem Prod.fst hx
      rw [dictInsert, if_neg hcond, Prod.mk.eta]
    rw [h1, ih (acc ++ [kv]) ?_ hnd.2, List.append_assoc]
    · rfl
    · intro k hk
      rw [List.map_append, List.mem_append]
      rintro (h2 | h2)
      · exact hdisj k (List.mem_cons_of_mem _ hk) h2
      · simp only [List.map_cons, List.map_nil, List.mem_singleton] at h2
        rw [h2] at hk
        exact hnd.1 hk

theorem find?_key_none (d : List (String × String)) (k : String)
    (h : k ∉ d.map Prod.fst) : d.find? (fun kv => kv.1 == k) = none := by
  rw [List.find?_eq_none]
  intro kv hkv
  simp only [beq_iff_eq]
  intro he
  exact h (by rw [← he]; exact List.mem_map_of_mem Prod.fst hkv)


theorem copyLoop_ok :
    ∀ (rows : List PicRow) (done pending : List (String × String)),
      pending.map Prod.fst = rows.map PicRow.sha3 →
      ((done ++ pending).map Prod.fst).Nodup →
      (∀ r ∈ rows, ∃ n, r.pgnum = some n) →
      copyLoop (done ++ pending) rows =
        .ok (done ++ rows.map (fun r =>
               (r.sha3, imgpath r.pfx (r.pgnum.getD 0) r.filename)),
             rows.map (fun r => imgpath r.pfx (r.pgnum.getD 0) r.filename)) := by
  intro rows
  induction rows with
  | nil =>
    intro done pending hpend _ _
    have hp : pending = [] := by
      rw [List.map_nil] at hpend
      exact List.map_eq_nil_iff.mp hpend
    subst hp
    simp [copyLoop]
  | cons r rs ih =>
    intro done pending hpend hnd hpg
    cases pending with
    | nil => simp at hpend
    | cons p0 pt =>
      rw [List.map_cons, List.map_cons, List.cons.injEq] at hpend
      obtain ⟨hp0, hpt⟩ := hpend
      obtain ⟨n, hn⟩ := hpg r (List.mem_cons_self r rs)
      have hnd2 : (done.map Prod.fst ++ r.sha3 :: pt.map Prod.fst).Nodup := by
        have heq : (done ++ p0 :: pt).map Prod.fst =
            done.map Prod.fst ++ r.sha3 :: pt.map Prod.fst := by
          rw [List.map_append, List.map_cons, hp0]
        rw [← heq]
        exact hnd
      have hnotdone : r.sha3 ∉ done.map Prod.fst := by
        rw [List.nodup_append] at hnd2
        intro hc
        exact hnd2.2.2 hc (by simp)
      have hnotpt : r.sha3 ∉ pt.map Prod.fst := by
        rw [List.nodup_append] at hnd2
        exact (List.nodup_cons.mp hnd2.2.1).1
      have hlook : dictLookup (done ++ p0 :: pt) r.sha3 = some p0.2 := by
        rw [dictLookup, List.find?_append, find?_key_none done r.sha3 hnotdone,
            List.find?_cons_of_pos pt (by simp [hp0])]
        rfl
      have hins : dictInsert (done ++ p0 :: pt) r.sha3 (imgpath r.pfx n r.filename) =
          (done ++ [(r.sha3, imgpath r.pfx n r.filename)]) ++ pt := by
        rw [dictInsert, if_pos]
        · rw [List.map_append, List.map_cons]
          have hd2 : done.map (fun kv =>
              if kv.1 == r.sha3 then (r.sha3, imgpath r.pfx n r.filename) else kv) = done := by
            conv_rhs => rw [← List.map_id done]
            apply List.map_congr_left
            intro x hx
            rw [if_neg (by
              simp only [beq_iff_eq]
              intro he
              exact hnotdone (he ▸ List.mem_map_of_mem Prod.fst hx))]
            rfl
          have hpt2 : pt.map (fun kv =>
              if kv.1 == r.sha3 then (r.sha3, imgpath r.pfx n r.filename) else kv) = pt := by
            conv_rhs => rw [← List.map_id pt]
            apply List.map_congr_left
            intro x hx
            rw [if_neg (by
              simp only [beq_iff_eq]
              intro he
              exact hnotpt (he ▸ List.mem_map_of_mem Prod.fst hx))]
            rfl
          rw [hd2, hpt2, if_pos (by simp [hp0] : (p0.1 == r.sha3) = true)]
          rw [List.append_assoc]
          rfl
        · rw [List.any_eq_true]
          exact ⟨p0, List.mem_append_right done (List.mem_cons_self p0 pt),
            by simp [hp0]⟩
      have hih := ih (done ++ [(r.sha3, imgpath r.pfx n r.filename)]) pt hpt (by
        have heq2 : (((done ++ [(r.sha3, imgpath r.pfx n r.filename)]) ++ pt).map
            Prod.fst) = done.map Prod.fst ++ r.sha3 :: pt.map Prod.fst := by
          rw [List.map_append, List.map_append, List.append_assoc]
          rfl
        rw [heq2]
        exact hnd2) (fun r2 h2 => hpg r2 (List.mem_cons_of_mem r h2))
      have hstep : copyLoop (done ++ p0 :: pt) (r :: rs) =
          match copyLoop (dictInsert (done ++ p0 :: pt) r.sha3
              (imgpath r.pfx n r.filename)) rs with
          | .error e => .error e
          | .ok (d2, outs) => .ok (d2, imgpath r.pfx n r.filename :: outs) := by
        simp only [copyLoop, hn, hlook]
      rw [hstep, hins, hih]
      simp only [hn, Option.getD_some, List.map_cons, List.append_assoc,
        List.singleton_append]

theorem generatorRun_ok (db : DB) (scan : List (String × String))
    (h1 : scan.map Prod.fst = db.pics.map PicRow.sha3)
    (h2 : (db.pics.map PicRow.sha3).Nodup)
    (h3 : ∀ r ∈ db.pics, ∃ n, r.pgnum = some n) :
    generatorRun db scan = .ok
      (db.pics.map (fun r => imgpath r.pfx (r.pgnum.getD 0) r.filename)
       ++ db.pics.map (fun r =>
            "thumbs/" ++ mogrifyName (imgpath r.pfx (r.pgnum.getD 0) r.filename))
       ++ (booksOf db).flatMap (bookFiles db)
       ++ ["index.html", "pages.html", "style.css"]) := by
  have hscanNd : (scan.map Prod.fst).Nodup := by
    rw [h1]
    exact h2
  have hdict : picsDict scan = scan := by
    rw [picsDict, foldl_dictInsert_eq scan [] (by simp) hscanNd]
    rfl
  have hcopy : copyLoop scan db.pics = .ok
      (db.pics.map (fun r => (r.sha3, imgpath r.pfx (r.pgnum.getD 0) r.filename)),
       db.pics.map (fun r => imgpath r.pfx (r.pgnum.getD 0) r.filename)) := by
    have hc := copyLoop_ok db.pics [] scan h1 (by simpa using hscanNd) h3
    simpa using hc
  simp only [generatorRun, hdict, hcopy, thumbFiles, List.map_map]
  rfl

/-- C6 as the spec words it, with the placement of the image and thumbnail
files amended: the generator writes index.html, pages.html and style.css at
the output root, the copied images under images/ at the root and the
thumbnails under thumbs/ at the root (shared across books, not per book),
and for every book the book index, the book page list, one category page
list per distinct category and one detail page per picture. -/
def generatorOutputsSpec (db : DB) : List String :=
  ["index.html", "pages.html", "style.css"]
  ++ db.pics.map (fun r => imgpath r.pfx (r.pgnum.getD 0) r.filename)
  ++ db.pics.map (fun r => thumbpath r.pfx (r.pgnum.getD 0))
  ++ (booksOf db).flatMap (fun b =>
       [b ++ "/index.html", b ++ "/pages.html"]
       ++ (bookCats db b).map (fun c2 => b ++ "/pages-" ++ c2 ++ ".html")
       ++ (bookPics db b).map (fun p => b ++ "/pages/pg" ++ pyShow p.pgnum ++ ".html"))

/-- C6 amended: under a catalog in sync with the scanned tree (same hashes
in the same order, no duplicate hashes, page numbers assigned, and sane
prefixes and extensions containing no path separator), the set of files
the generator writes is exactly the amended layout: index.html, pages.html
and style.css at the root, images/* and thumbs/* at the root (not per
book), and per book index.html, pages.html, pages-(category).html and
pages/pg(N).html. -/
theorem c6_output_layout (db : DB) (scan : List (String × String))
    (h1 : scan.map Prod.fst = db.pics.map PicRow.sha3)
    (h2 : (db.pics.map PicRow.sha3).Nodup)
    (h3 : ∀ r ∈ db.pics, ∃ n, r.pgnum = some n)
    (h4 : ∀ r ∈ db.pics, (∀ c2 ∈ (pyLower r.pfx).data, (c2 != '/') = true) ∧
          splitextExt r.filename ≠ "" ∧
          (∀ c2 ∈ (splitextExt r.filename).data, (c2 != '/') = true)) :
    ∃ L, generatorRun db scan = .ok L ∧ ∀ x, x ∈ L ↔ x ∈ generatorOutputsSpec db := by
  have hthumb : db.pics.map (fun r =>
        "thumbs/" ++ mogrifyName (imgpath r.pfx (r.pgnum.getD 0) r.filename)) =
      db.pics.map (fun r => thumbpath r.pfx (r.pgnum.getD 0)) :=
    List.map_congr_left (fun r hr =>
      mogrify_thumb r.pfx (r.pgnum.getD 0) r.filename (h4 r hr).1 (h4 r hr).2.1
        (h4 r hr).2.2)
  refine ⟨_, generatorRun_ok db scan h1 h2 h3, ?_⟩
  intro x
  have hbooks : (booksOf db).flatMap (bookFiles db) = (booksOf db).flatMap (fun b =>
      [b ++ "/index.html", b ++ "/pages.html"]
      ++ (bookCats db b).map (fun c2 => b ++ "/pages-" ++ c2 ++ ".html")
      ++ (bookPics db b).map (fun p => b ++ "/pages/pg" ++ pyShow p.pgnum ++ ".html")) :=
    rfl
  rw [hthumb, generatorOutputsSpec, ← hbooks]
  simp only [List.mem_append]
  tauto

/-- C6 counterexample: a one-book catalog; the image and its thumbnail are
written to images/ and thumbs/ at the output root, and no file is written
under B/images/ or B/thumbs/ (the claim places them per book). -/
def c6db : DB :=
  { pics := [⟨1, "A001-01.jpg", none, "B", "A", "h1", some 1, "B", 1⟩],
    tags := [⟨1, "str", "title", "Image Title"⟩],
    picTags := [] }

def c6scan : List (String × String) := [("h1", "src/B/A001-01.jpg")]

theorem c6_counterexample :
    generatorRun c6db c6scan = .ok
      ["images/ar-a-0001.jpg", "thumbs/ar-a-0001.png", "B/index.html",
       "B/pages.html", "B/pages/pg1.html", "index.html", "pages.html",
       "style.css"] ∧
    "images/ar-a-0001.jpg" ∈
      ["images/ar-a-0001.jpg", "thumbs/ar-a-0001.png", "B/index.html",
       "B/pages.html", "B/pages/pg1.html", "index.html", "pages.html",
       "style.css"] ∧
    "B/images/ar-a-0001.jpg" ∉
      ["images/ar-a-0001.jpg", "thumbs/ar-a-0001.png", "B/index.html",
       "B/pages.html", "B/pages/pg1.html", "index.html", "pages.html",
       "style.css"] ∧
    "B/thumbs/ar-a-0001.png" ∉
      ["images/ar-a-0001.jpg", "thumbs/ar-a-0001.png", "B/index.html",
       "B/pages.html", "B/pages/pg1.html", "index.html", "pages.html",
       "style.css"] := by
  refine ⟨by rfl, by decide, by decide, by decide⟩

theorem c6_witness :
    (c6scan.map Prod.fst = c6db.pics.map PicRow.sha3) ∧
    (c6db.pics.map PicRow.sha3).Nodup ∧
    (∃ L, generatorRun c6db c6scan = .ok L ∧
      ∀ x, x ∈ L ↔ x ∈ generatorOutputsSpec c6db) :=
  ⟨by decide, by decide,
   c6_output_layout c6db c6scan (by decide) (by decide)
     (by intro r hr; simp only [c6db, List.mem_singleton] at hr; exact ⟨1, by rw [hr]⟩)
     (by intro r hr; simp only [c6db, List.mem_singleton] at hr; subst hr; exact ⟨by decide, by decide, by decide⟩)⟩

/-- C7 witness data: a book with one categorized picture. -/
def c7db : DB :=
  { pics := [⟨1, "A001-01.jpg", some "Soups", "B", "A", "h1", some 1, "B/Soups", 1⟩],
    tags := [⟨1, "str", "title", "Image Title"⟩],
    picTags := [] }

theorem c7_witness :
    (bookCats c7db "B").Nodup ∧
    ("Soups" ∈ bookCats c7db "B" ↔
      ∃ p ∈ c7db.pics, p.book = "B" ∧ p.category = some "Soups") :=
  ⟨(c7_amended c7db "B").1, (c7_amended c7db "B").2.1 "Soups"⟩
